import Mathlib

/-!
Verification of the in-memory version-control engine (`tri`):
shallow embedding of the core object model (file snapshots, commits,
staging area, object store, Merkle digest, DAG traversal, three-way merge)
together with proofs of the specified properties.

The digest substrate of the source is `std::hash<std::string>` printed as
16 hex digits; it is an arbitrary pure function of its input string, so all
definitions that hash take the digest function `H : String → String` as a
parameter.  Machine pointers are modelled by values: a C++ `Commit*` graph
becomes an inductive `Commit` tree (acyclic by construction, exactly the
documented repository invariant), and `nullptr` becomes `Option`.
-/

namespace Tri

/-- Embeds `entities::File`: a snapshot `(path, content, hash)`. -/
structure File where
  path : String
  content : String
  hash : String
deriving DecidableEq, Repr

/-- Embeds the `entities::File(path, content)` constructor:
`hash_ = H(content_ + path_)` (`File::calculate_hash`). -/
def File.make (H : String → String) (path content : String) : File :=
  { path := path, content := content, hash := H (content ++ path) }

/-- Embeds `File::set_hash_manual`. -/
def File.set_hash_manual (f : File) (h : String) : File :=
  { f with hash := h }

/-- Embeds `entities::Commit`: id, message, author, time, tree hash, file
list and up to two parent pointers.  Parent pointers become nested values. -/
inductive Commit where
  | mk (id message author : String) (time : Nat) (tree_hash : String)
      (files : List File) (parent1 parent2 : Option Commit)

/-- The commit identifier field. -/
def Commit.id : Commit → String
  | .mk i _ _ _ _ _ _ _ => i

/-- The commit message field. -/
def Commit.message : Commit → String
  | .mk _ m _ _ _ _ _ _ => m

/-- The commit author field. -/
def Commit.author : Commit → String
  | .mk _ _ a _ _ _ _ _ => a

/-- The commit timestamp field. -/
def Commit.time : Commit → Nat
  | .mk _ _ _ t _ _ _ _ => t

/-- The root tree hash field. -/
def Commit.tree_hash : Commit → String
  | .mk _ _ _ _ th _ _ _ => th

/-- The tracked file list field. -/
def Commit.files : Commit → List File
  | .mk _ _ _ _ _ fs _ _ => fs

/-- The first parent (`get_parent1`). -/
def Commit.parent1 : Commit → Option Commit
  | .mk _ _ _ _ _ _ p _ => p

/-- The second parent (`get_parent2`). -/
def Commit.parent2 : Commit → Option Commit
  | .mk _ _ _ _ _ _ _ p => p

/-- Embeds `Commit::calculate_id`: digest of
`message ∥ author ∥ time ∥ tree_hash ∥ parent1_id? ∥ parent2_id?`. -/
def Commit.calculate_id (H : String → String) (message author : String)
    (time : Nat) (tree_hash : String) (p1 p2 : Option Commit) : String :=
  H (message ++ author ++ toString time ++ tree_hash ++
      (match p1 with | some p => p.id | none => "") ++
      (match p2 with | some p => p.id | none => ""))

/-- Embeds the `entities::Commit` constructor (with an injectable clock, as
the specification prescribes for tests): the id is fixed at construction. -/
def Commit.make (H : String → String) (message author : String) (time : Nat)
    (tree_hash : String) (files : List File) (p1 p2 : Option Commit) : Commit :=
  .mk (Commit.calculate_id H message author time tree_hash p1 p2)
    message author time tree_hash files p1 p2

/-- Embeds `data_structures::HashTable<K, V>` by its observable mapping: an
association list whose first entry for a key is authoritative. -/
abbrev HashTable (K V : Type) := List (K × V)

/-- Embeds `HashTable::put`: update the value of an existing entry for the
key in place, else insert a fresh entry. -/
def HashTable.put {K V : Type} [DecidableEq K] :
    HashTable K V → K → V → HashTable K V
  | [], k, v => [(k, v)]
  | (k', v') :: rest, k, v =>
      if k' = k then (k, v) :: rest else (k', v') :: HashTable.put rest k v

/-- Embeds `HashTable::get`/`contains` jointly: the value stored for a key,
when present. -/
def HashTable.find {K V : Type} [DecidableEq K] :
    HashTable K V → K → Option V
  | [], _ => none
  | (k', v) :: rest, k => if k' = k then some v else HashTable.find rest k

/-- Embeds `HashTable::contains`. -/
def HashTable.contains {K V : Type} [DecidableEq K]
    (m : HashTable K V) (k : K) : Bool :=
  (HashTable.find m k).isSome

/-- Embeds `core::StagingArea::add_file`: replace the first snapshot with
the same path in place, else append. -/
def StagingArea.add_file : List File → File → List File
  | [], f => [f]
  | g :: rest, f =>
      if g.path = f.path then f :: rest else g :: StagingArea.add_file rest f

/-- Embeds `core::GraphManager`: commit index, ownership list, blob pool. -/
structure GraphManager where
  commit_map : HashTable String Commit
  managed_commits : List Commit
  blob_storage : HashTable String String

/-- Embeds `GraphManager::add_commit` (the `nullptr` guard is subsumed by
the non-optional argument type). -/
def GraphManager.add_commit (gm : GraphManager) (c : Commit) : GraphManager :=
  { gm with
    commit_map := HashTable.put gm.commit_map c.id c
    managed_commits := gm.managed_commits ++ [c] }

/-- Embeds `GraphManager::get_commit`. -/
def GraphManager.get_commit (gm : GraphManager) (id : String) : Option Commit :=
  HashTable.find gm.commit_map id

/-- Embeds `GraphManager::save_blob`: insert only when the hash is absent. -/
def GraphManager.save_blob (gm : GraphManager) (hash content : String) :
    GraphManager :=
  if HashTable.contains gm.blob_storage hash then gm
  else { gm with blob_storage := HashTable.put gm.blob_storage hash content }

/-- Embeds `GraphManager::get_blob_content`: stored content, or `""`. -/
def GraphManager.get_blob_content (gm : GraphManager) (hash : String) : String :=
  (HashTable.find gm.blob_storage hash).getD ""

/- ### Association-table lemmas -/

theorem HashTable.find_put_self {K V : Type} [DecidableEq K]
    (m : HashTable K V) (k : K) (v : V) :
    HashTable.find (HashTable.put m k v) k = some v := by
  induction m with
  | nil => simp [HashTable.put, HashTable.find]
  | cons e rest ih =>
      by_cases h : e.1 = k
      · simp [HashTable.put, HashTable.find, h]
      · simp [HashTable.put, HashTable.find, h, ih]

/- ### Staging-area lemmas -/

theorem StagingArea.mem_path_add_file {l : List File} {f : File} {x : String}
    (hx : x ∈ (StagingArea.add_file l f).map File.path) :
    x = f.path ∨ x ∈ l.map File.path := by
  induction l with
  | nil => simpa [StagingArea.add_file] using hx
  | cons g rest ih =>
      by_cases h : g.path = f.path
      · simp only [StagingArea.add_file, if_pos h, List.map_cons,
          List.mem_cons] at hx ⊢
        tauto
      · simp only [StagingArea.add_file, if_neg h, List.map_cons,
          List.mem_cons] at hx ⊢
        tauto

theorem StagingArea.add_file_nodup {l : List File} {f : File}
    (hnd : (l.map File.path).Nodup) :
    ((StagingArea.add_file l f).map File.path).Nodup := by
  induction l with
  | nil => simp [StagingArea.add_file]
  | cons g rest ih =>
      simp only [List.map_cons, List.nodup_cons] at hnd
      by_cases h : g.path = f.path
      · simp only [StagingArea.add_file, if_pos h, List.map_cons,
          List.nodup_cons]
        exact ⟨h ▸ hnd.1, hnd.2⟩
      · simp only [StagingArea.add_file, if_neg h, List.map_cons,
          List.nodup_cons]
        refine ⟨fun hmem => ?_, ih hnd.2⟩
        rcases StagingArea.mem_path_add_file hmem with h1 | h1
        · exact h h1
        · exact hnd.1 h1

theorem StagingArea.add_file_append {l : List File} {f : File}
    (habs : f.path ∉ l.map File.path) :
    StagingArea.add_file l f = l ++ [f] := by
  induction l with
  | nil => simp [StagingArea.add_file]
  | cons g rest ih =>
      simp only [List.map_cons, List.mem_cons] at habs
      push_neg at habs
      have h : g.path ≠ f.path := fun h => habs.1 h.symm
      simp [StagingArea.add_file, h, ih habs.2]

/-- C6: staging keeps paths unique across any sequence of `add_file` calls,
an `add_file` whose path is already staged replaces the entry in place at
its original position, and a fresh path is appended at the end. -/
theorem staging_add_file_unique_upsert :
    (∀ ops : List File,
      ((ops.foldl StagingArea.add_file []).map File.path).Nodup) ∧
    (∀ (staged : List File) (f : File), (staged.map File.path).Nodup →
      (f.path ∉ staged.map File.path →
        StagingArea.add_file staged f = staged ++ [f]) ∧
      (∀ l1 g l2, staged = l1 ++ g :: l2 → g.path = f.path →
        StagingArea.add_file staged f = l1 ++ f :: l2)) := by
  constructor
  · intro ops
    suffices h : ∀ acc : List File, (acc.map File.path).Nodup →
        ((ops.foldl StagingArea.add_file acc).map File.path).Nodup by
      exact h [] (by simp)
    induction ops with
    | nil => intro acc hacc; simpa using hacc
    | cons f rest ih =>
        intro acc hacc
        exact ih _ (StagingArea.add_file_nodup hacc)
  · intro staged f hnd
    refine ⟨fun habs => StagingArea.add_file_append habs, ?_⟩
    intro l1 g l2 hsplit hpath
    subst hsplit
    induction l1 with
    | nil =>
        simp [StagingArea.add_file, hpath]
    | cons h1 t1 ih =>
        simp only [List.cons_append, List.map_cons, List.nodup_cons] at hnd
        have hne : h1.path ≠ f.path := by
          intro he
          exact hnd.1 (he ▸ (hpath ▸ (by simp : g.path ∈ ((t1 ++ g :: l2).map File.path))))
        simp only [List.cons_append, StagingArea.add_file, if_neg hne]
        rw [show (t1.append (g :: l2)) = t1 ++ g :: l2 from rfl, ih hnd.2]

/-- Witness for C6 at concrete inputs: appending a fresh path and replacing
an existing path in place. -/
theorem staging_add_file_unique_upsert_witness :
    StagingArea.add_file [⟨"a", "x", "h1"⟩] ⟨"b", "y", "h2"⟩ =
      [⟨"a", "x", "h1"⟩, ⟨"b", "y", "h2"⟩] ∧
    StagingArea.add_file [⟨"a", "x", "h1"⟩, ⟨"b", "y", "h2"⟩] ⟨"a", "z", "h3"⟩ =
      [⟨"a", "z", "h3"⟩, ⟨"b", "y", "h2"⟩] := by
  constructor
  · exact (staging_add_file_unique_upsert.2 [⟨"a", "x", "h1"⟩] ⟨"b", "y", "h2"⟩
      (by decide)).1 (by decide)
  · exact (staging_add_file_unique_upsert.2
      [⟨"a", "x", "h1"⟩, ⟨"b", "y", "h2"⟩] ⟨"a", "z", "h3"⟩ (by decide)).2
      [] ⟨"a", "x", "h1"⟩ [⟨"b", "y", "h2"⟩] (by decide) (by decide)

/-- C7 counterexample: a second `add_commit` with an already-stored id is
not rejected; the stored mapping is silently replaced by the duplicate
(`HashTable::put` updates the existing entry in place). -/
theorem add_commit_duplicate_counterexample :
    GraphManager.get_commit
        (GraphManager.add_commit
          (GraphManager.add_commit ⟨[], [], []⟩ (.mk "x" "m1" "a" 0 "t" [] none none))
          (.mk "x" "m2" "a" 0 "t" [] none none)) "x" =
      some (.mk "x" "m2" "a" 0 "t" [] none none) ∧
    Commit.mk "x" "m1" "a" 0 "t" [] none none ≠
      Commit.mk "x" "m2" "a" 0 "t" [] none none := by
  constructor
  · rfl
  · intro h
    injection h with h1 h2
    exact absurd h2 (by decide)

/-- C7 amended: `add_commit` stores the commit under its id and appends it
to the ownership list; a second `add_commit` with the same id is not
rejected but silently overwrites the mapping for that id (last writer wins)
while still appending to the ownership list. -/
theorem add_commit_stores_and_overwrites (gm : GraphManager) (c : Commit) :
    GraphManager.get_commit (GraphManager.add_commit gm c) c.id = some c ∧
    (GraphManager.add_commit gm c).managed_commits =
      gm.managed_commits ++ [c] := by
  exact ⟨HashTable.find_put_self _ _ _, rfl⟩

/-- C9: the blob store is first-writer-wins.  Saving under a hash already
present is a no-op; after saving `c` under a fresh hash `h`, any further
sequence of saves to `h` leaves `get_blob_content h = c`; an absent hash
reads back as the empty string. -/
theorem save_blob_first_writer_wins (gm : GraphManager) (h c : String)
    (cs : List String) (habs : HashTable.find gm.blob_storage h = none) :
    (∀ (g : GraphManager) (c2 : String),
        HashTable.contains g.blob_storage h = true →
        GraphManager.save_blob g h c2 = g) ∧
    GraphManager.get_blob_content
        (cs.foldl (fun g c2 => GraphManager.save_blob g h c2)
          (GraphManager.save_blob gm h c)) h = c ∧
    GraphManager.get_blob_content gm h = "" := by
  have hnoop : ∀ (g : GraphManager) (c2 : String),
      HashTable.contains g.blob_storage h = true →
      GraphManager.save_blob g h c2 = g := by
    intro g c2 hc
    simp [GraphManager.save_blob, hc]
  refine ⟨hnoop, ?_, ?_⟩
  · have hfirst : HashTable.find
        (GraphManager.save_blob gm h c).blob_storage h = some c := by
      simp [GraphManager.save_blob, HashTable.contains, habs,
        HashTable.find_put_self]
    have hkeep : ∀ (g : GraphManager),
        HashTable.find g.blob_storage h = some c →
        HashTable.find
          (cs.foldl (fun g c2 => GraphManager.save_blob g h c2) g).blob_storage
          h = some c := by
      induction cs with
      | nil => intro g hg; simpa using hg
      | cons c2 rest ih =>
          intro g hg
          have : GraphManager.save_blob g h c2 = g :=
            hnoop g c2 (by simp [HashTable.contains, hg])
          simpa [this] using ih g hg
    simp [GraphManager.get_blob_content, hkeep _ hfirst]
  · simp [GraphManager.get_blob_content, habs]

/-- Witness for C9 at a concrete input: the first content wins over a later
save under the same hash, and an unsaved hash reads back empty. -/
theorem save_blob_first_writer_wins_witness :
    GraphManager.get_blob_content
        ((["B"].foldl (fun g c2 => GraphManager.save_blob g "h" c2)
          (GraphManager.save_blob ⟨[], [], []⟩ "h" "A"))) "h" = "A" ∧
    GraphManager.get_blob_content (⟨[], [], []⟩ : GraphManager) "h" = "" := by
  exact ⟨(save_blob_first_writer_wins ⟨[], [], []⟩ "h" "A" ["B"] rfl).2.1,
    (save_blob_first_writer_wins ⟨[], [], []⟩ "h" "A" ["B"] rfl).2.2⟩

/- ### Merkle tree (`core::MerkleTree`) -/

/-- Embeds the blob-node digest of `MerkleTree::build_from_staging`:
`H("blob " ∥ decimal byte length ∥ NUL ∥ content)`. -/
def MerkleTree.blob_hash (H : String → String) (f : File) : String :=
  H ("blob " ++ toString f.content.utf8ByteSize ++ "\x00" ++ f.content)

/-- The child list built by `MerkleTree::build_from_staging` before sorting:
one node per staged file, name = path, hash = blob digest. -/
def MerkleTree.build_children (H : String → String) (files : List File) :
    List (String × String) :=
  files.map (fun f => (f.path, MerkleTree.blob_hash H f))

/-- One in-place pass of `MerkleTree::sort_children_by_name`: adjacent
nodes whose names are out of order are swapped, carrying the larger name
forward; the flag records whether any swap happened. -/
def MerkleTree.bubble_pass :
    List (String × String) → List (String × String) × Bool
  | [] => ([], false)
  | [a] => ([a], false)
  | a :: b :: rest =>
      if b.1 < a.1 then
        (b :: (MerkleTree.bubble_pass (a :: rest)).1, true)
      else
        ((a :: (MerkleTree.bubble_pass (b :: rest)).1),
          (MerkleTree.bubble_pass (b :: rest)).2)

/-- Count of out-of-order pairs; the termination measure of the
`do … while (swapped)` loop in `MerkleTree::sort_children_by_name`. -/
def MerkleTree.inversions : List (String × String) → Nat
  | [] => 0
  | a :: rest => rest.countP (fun b => b.1 < a.1) + MerkleTree.inversions rest

theorem MerkleTree.bubble_pass_spec :
    ∀ (n : Nat) (l : List (String × String)), l.length = n →
      (MerkleTree.bubble_pass l).1.Perm l ∧
      ((MerkleTree.bubble_pass l).2 = false → (MerkleTree.bubble_pass l).1 = l) ∧
      ((MerkleTree.bubble_pass l).2 = true →
        MerkleTree.inversions (MerkleTree.bubble_pass l).1 <
          MerkleTree.inversions l) := by
  intro n
  induction n with
  | zero =>
      intro l hl
      rw [List.length_eq_zero] at hl
      subst hl
      simp [MerkleTree.bubble_pass]
  | succ k ih =>
      intro l hl
      match l with
      | [] => simp [MerkleTree.bubble_pass]
      | [a] => simp [MerkleTree.bubble_pass]
      | a :: b :: rest =>
          simp only [List.length_cons] at hl
          have hla : (a :: rest).length = k := by
            simp only [List.length_cons]; omega
          have hlb : (b :: rest).length = k := by
            simp only [List.length_cons]; omega
          by_cases hswap : b.1 < a.1
          · have iha := ih (a :: rest) hla
            have heq : MerkleTree.bubble_pass (a :: b :: rest) =
                (b :: (MerkleTree.bubble_pass (a :: rest)).1, true) := by
              rw [MerkleTree.bubble_pass]
              rw [if_pos hswap]
            refine ⟨?_, ?_, ?_⟩
            · rw [heq]
              exact (iha.1.cons b).trans (List.Perm.swap a b rest)
            · rw [heq]
              intro hfl
              exact absurd hfl (by simp)
            · intro _
              rw [heq]
              show MerkleTree.inversions
                  (b :: (MerkleTree.bubble_pass (a :: rest)).1) <
                MerkleTree.inversions (a :: b :: rest)
              have hcount : (MerkleTree.bubble_pass (a :: rest)).1.countP
                  (fun x => x.1 < b.1) =
                  (a :: rest).countP (fun x => x.1 < b.1) :=
                iha.1.countP_eq _
              have hno : ¬ a.1 < b.1 :=
                fun h => absurd (h.trans hswap) (lt_irrefl _)
              have hinvle :
                  MerkleTree.inversions (MerkleTree.bubble_pass (a :: rest)).1 ≤
                  MerkleTree.inversions (a :: rest) := by
                rcases hfl : (MerkleTree.bubble_pass (a :: rest)).2 with _ | _
                · exact le_of_eq (congrArg _ (iha.2.1 hfl))
                · exact le_of_lt (iha.2.2 hfl)
              have e1 : MerkleTree.inversions
                  (b :: (MerkleTree.bubble_pass (a :: rest)).1) =
                  (MerkleTree.bubble_pass (a :: rest)).1.countP
                    (fun x => x.1 < b.1) +
                  MerkleTree.inversions (MerkleTree.bubble_pass (a :: rest)).1 :=
                rfl
              have e2 : (a :: rest).countP (fun x => x.1 < b.1) =
                  rest.countP (fun x => x.1 < b.1) := by
                rw [List.countP_cons]
                simp [hno]
              have e3 : MerkleTree.inversions (a :: b :: rest) =
                  (b :: rest).countP (fun x => x.1 < a.1) +
                  (rest.countP (fun x => x.1 < b.1) +
                    MerkleTree.inversions rest) := rfl
              have e4 : (b :: rest).countP (fun x => x.1 < a.1) =
                  rest.countP (fun x => x.1 < a.1) + 1 := by
                rw [List.countP_cons]
                simp [hswap]
              have e5 : MerkleTree.inversions (a :: rest) =
                  rest.countP (fun x => x.1 < a.1) +
                  MerkleTree.inversions rest := rfl
              omega
          · have ihb := ih (b :: rest) hlb
            have heq : MerkleTree.bubble_pass (a :: b :: rest) =
                (a :: (MerkleTree.bubble_pass (b :: rest)).1,
                  (MerkleTree.bubble_pass (b :: rest)).2) := by
              rw [MerkleTree.bubble_pass]
              rw [if_neg hswap]
            refine ⟨?_, ?_, ?_⟩
            · rw [heq]
              exact ihb.1.cons a
            · rw [heq]
              intro hfl
              rw [ihb.2.1 hfl]
            · rw [heq]
              intro hfl
              show MerkleTree.inversions
                  (a :: (MerkleTree.bubble_pass (b :: rest)).1) <
                MerkleTree.inversions (a :: b :: rest)
              have hcount : (MerkleTree.bubble_pass (b :: rest)).1.countP
                  (fun x => x.1 < a.1) =
                  (b :: rest).countP (fun x => x.1 < a.1) :=
                ihb.1.countP_eq _
              have hlt := ihb.2.2 hfl
              have e1 : MerkleTree.inversions
                  (a :: (MerkleTree.bubble_pass (b :: rest)).1) =
                  (MerkleTree.bubble_pass (b :: rest)).1.countP
                    (fun x => x.1 < a.1) +
                  MerkleTree.inversions (MerkleTree.bubble_pass (b :: rest)).1 :=
                rfl
              have e2 : MerkleTree.inversions (a :: b :: rest) =
                  (b :: rest).countP (fun x => x.1 < a.1) +
                  MerkleTree.inversions (b :: rest) := rfl
              omega

/-- Embeds the `do { … } while (swapped)` loop of
`MerkleTree::sort_children_by_name` (the `kids.empty()` guard is subsumed
by the empty pass). -/
def MerkleTree.sort_children (l : List (String × String)) :
    List (String × String) :=
  if h : (MerkleTree.bubble_pass l).2 = true then
    MerkleTree.sort_children (MerkleTree.bubble_pass l).1
  else
    (MerkleTree.bubble_pass l).1
termination_by MerkleTree.inversions l
decreasing_by
  exact (MerkleTree.bubble_pass_spec l.length l rfl).2.2 h

theorem MerkleTree.bubble_pass_noswap_chain :
    ∀ (n : Nat) (l : List (String × String)), l.length = n →
      (MerkleTree.bubble_pass l).2 = false →
      List.Chain' (fun x y => x.1 ≤ y.1) l := by
  intro n
  induction n with
  | zero =>
      intro l hl _
      rw [List.length_eq_zero] at hl
      subst hl
      simp
  | succ k ih =>
      intro l hl hfl
      match l with
      | [] => simp
      | [a] => simp
      | a :: b :: rest =>
          simp only [List.length_cons] at hl
          by_cases hswap : b.1 < a.1
          · have heq : MerkleTree.bubble_pass (a :: b :: rest) =
                (b :: (MerkleTree.bubble_pass (a :: rest)).1, true) := by
              rw [MerkleTree.bubble_pass]
              rw [if_pos hswap]
            rw [heq] at hfl
            exact absurd hfl (by simp)
          · have heq : MerkleTree.bubble_pass (a :: b :: rest) =
                (a :: (MerkleTree.bubble_pass (b :: rest)).1,
                  (MerkleTree.bubble_pass (b :: rest)).2) := by
              rw [MerkleTree.bubble_pass]
              rw [if_neg hswap]
            rw [heq] at hfl
            have hchain := ih (b :: rest)
              (by simp only [List.length_cons]; omega) hfl
            exact List.Chain'.cons (le_of_not_lt hswap) hchain

theorem MerkleTree.sort_children_spec (l : List (String × String)) :
    (MerkleTree.sort_children l).Perm l ∧
    List.Chain' (fun x y => x.1 ≤ y.1) (MerkleTree.sort_children l) := by
  generalize hn : MerkleTree.inversions l = n
  induction n using Nat.strong_induction_on generalizing l with
  | _ n ihn =>
      rw [MerkleTree.sort_children]
      by_cases h : (MerkleTree.bubble_pass l).2 = true
      · rw [dif_pos h]
        have hdec := (MerkleTree.bubble_pass_spec l.length l rfl).2.2 h
        have hres := ihn _ (hn ▸ hdec) _ rfl
        exact ⟨hres.1.trans (MerkleTree.bubble_pass_spec l.length l rfl).1,
          hres.2⟩
      · rw [dif_neg h]
        have hfl : (MerkleTree.bubble_pass l).2 = false := by
          simpa using h
        rw [(MerkleTree.bubble_pass_spec l.length l rfl).2.1 hfl]
        exact ⟨List.Perm.refl l,
          MerkleTree.bubble_pass_noswap_chain l.length l rfl hfl⟩

theorem MerkleTree.sorted_perm_unique :
    ∀ (l1 l2 : List (String × String)), l1.Perm l2 →
      List.Pairwise (fun x y => x.1 ≤ y.1) l1 →
      List.Pairwise (fun x y => x.1 ≤ y.1) l2 →
      (l1.map Prod.fst).Nodup → l1 = l2 := by
  intro l1
  induction l1 with
  | nil =>
      intro l2 hperm _ _ _
      exact (hperm.nil_eq).symm ▸ rfl
  | cons a t1 ih =>
      intro l2 hperm hp1 hp2 hnd
      match l2 with
      | [] => exact absurd hperm.symm.nil_eq (by simp)
      | b :: t2 =>
          have hab : a = b := by
            by_contra hne
            have ha2 : a ∈ t2 := by
              have hmem := hperm.mem_iff.mp (List.mem_cons_self a t1)
              rcases List.mem_cons.mp hmem with h | h
              · exact absurd h hne
              · exact h
            have hb1 : b ∈ t1 := by
              have hmem := hperm.symm.mem_iff.mp (List.mem_cons_self b t2)
              rcases List.mem_cons.mp hmem with h | h
              · exact absurd h.symm hne
              · exact h
            have hba : b.1 ≤ a.1 := (List.pairwise_cons.mp hp2).1 a ha2
            have hab' : a.1 ≤ b.1 := (List.pairwise_cons.mp hp1).1 b hb1
            have heq : a.1 = b.1 := le_antisymm hab' hba
            simp only [List.map_cons, List.nodup_cons] at hnd
            exact hnd.1 (heq ▸ (List.mem_map_of_mem Prod.fst hb1))
          subst hab
          have htail : t1.Perm t2 := hperm.cons_inv
          simp only [List.map_cons, List.nodup_cons] at hnd
          rw [ih t2 htail (List.pairwise_cons.mp hp1).2
            (List.pairwise_cons.mp hp2).2 hnd.2]

/-- Embeds `MerkleTree::get_root_hash` over a staged file list: blob nodes
are built in staging order, sorted by name, and the root digest is
`H("tree " ∥ concat(child.digest ∥ child.name))`
(`MerkleTree::calculate_hashes_recursive` on the flat root). -/
def MerkleTree.get_root_hash (H : String → String) (files : List File) :
    String :=
  H ((MerkleTree.sort_children (MerkleTree.build_children H files)).foldl
      (fun acc c => acc ++ c.2 ++ c.1) "tree ")

/-- C2: the Merkle root digest is invariant under staging order.  Two
staged file lists that are equal as multisets of `(path, content)` pairs
(with paths unique, the staging-area invariant) produce identical root
digests. -/
theorem tree_hash_order_independent (H : String → String) (l1 l2 : List File)
    (hperm : (l1.map (fun f => (f.path, f.content))).Perm
      (l2.map (fun f => (f.path, f.content))))
    (hnd : (l1.map File.path).Nodup) :
    MerkleTree.get_root_hash H l1 = MerkleTree.get_root_hash H l2 := by
  have hbuild : ∀ l : List File, MerkleTree.build_children H l =
      (l.map (fun f => (f.path, f.content))).map
        (fun pc => (pc.1, H ("blob " ++ toString pc.2.utf8ByteSize ++
          "\x00" ++ pc.2))) := by
    intro l
    simp [MerkleTree.build_children, MerkleTree.blob_hash,
      List.map_map, Function.comp_def]
  have hcperm : (MerkleTree.build_children H l1).Perm
      (MerkleTree.build_children H l2) := by
    rw [hbuild l1, hbuild l2]
    exact hperm.map _
  have hfst : ∀ l : List File,
      (MerkleTree.build_children H l).map Prod.fst = l.map File.path := by
    intro l
    simp [MerkleTree.build_children, List.map_map, Function.comp_def]
  have hs1 := MerkleTree.sort_children_spec (MerkleTree.build_children H l1)
  have hs2 := MerkleTree.sort_children_spec (MerkleTree.build_children H l2)
  have hsortperm : (MerkleTree.sort_children (MerkleTree.build_children H l1)).Perm
      (MerkleTree.sort_children (MerkleTree.build_children H l2)) :=
    (hs1.1.trans hcperm).trans hs2.1.symm
  haveI : IsTrans (String × String) (fun x y => x.1 ≤ y.1) :=
    ⟨fun _ _ _ hxy hyz => le_trans hxy hyz⟩
  have hnd1 : ((MerkleTree.sort_children
      (MerkleTree.build_children H l1)).map Prod.fst).Nodup := by
    refine (hs1.1.map Prod.fst).nodup_iff.mpr ?_
    rw [hfst l1]
    exact hnd
  have heq : MerkleTree.sort_children (MerkleTree.build_children H l1) =
      MerkleTree.sort_children (MerkleTree.build_children H l2) :=
    MerkleTree.sorted_perm_unique _ _ hsortperm
      ((List.chain'_iff_pairwise (R := fun x y : String × String => x.1 ≤ y.1)).mp hs1.2)
      ((List.chain'_iff_pairwise (R := fun x y : String × String => x.1 ≤ y.1)).mp hs2.2)
      hnd1
  rw [MerkleTree.get_root_hash, MerkleTree.get_root_hash, heq]

/-- Witness for C2: two two-file stagings in opposite orders share a root
digest (with the identity digest function). -/
theorem tree_hash_order_independent_witness :
    MerkleTree.get_root_hash id
        [⟨"a", "1", "ha"⟩, ⟨"b", "2", "hb"⟩] =
      MerkleTree.get_root_hash id
        [⟨"b", "2", "hb"⟩, ⟨"a", "1", "ha"⟩] := by
  exact tree_hash_order_independent id
    [⟨"a", "1", "ha"⟩, ⟨"b", "2", "hb"⟩]
    [⟨"b", "2", "hb"⟩, ⟨"a", "1", "ha"⟩]
    (List.Perm.swap _ _ _) (by decide)

/- ### DAG engine (`core::GraphAlgorithms`) -/

/-- Reachability along parent edges, the commit itself included. -/
inductive Reaches : Commit → Commit → Prop
  | refl (c : Commit) : Reaches c c
  | parent1 {c p d : Commit} : c.parent1 = some p → Reaches p d → Reaches c d
  | parent2 {c p d : Commit} : c.parent2 = some p → Reaches p d → Reaches c d

theorem Reaches.eq_of_no_parents {c d : Commit} (h : Reaches c d)
    (h1 : c.parent1 = none) (h2 : c.parent2 = none) : d = c := by
  cases h with
  | refl => rfl
  | parent1 hp _ => rw [h1] at hp; cases hp
  | parent2 hp _ => rw [h2] at hp; cases hp

theorem Reaches.to_parent1 {c d p : Commit} (h : Reaches c d)
    (hp : d.parent1 = some p) : Reaches c p := by
  induction h with
  | refl c => exact Reaches.parent1 hp (Reaches.refl p)
  | parent1 h1 _ ih => exact Reaches.parent1 h1 (ih hp)
  | parent2 h2 _ ih => exact Reaches.parent2 h2 (ih hp)

theorem Reaches.to_parent2 {c d p : Commit} (h : Reaches c d)
    (hp : d.parent2 = some p) : Reaches c p := by
  induction h with
  | refl c => exact Reaches.parent2 hp (Reaches.refl p)
  | parent1 h1 _ ih => exact Reaches.parent1 h1 (ih hp)
  | parent2 h2 _ ih => exact Reaches.parent2 h2 (ih hp)

/-- The direct-parent relation used by the traversal invariants. -/
def IsParent (p c : Commit) : Prop :=
  c.parent1 = some p ∨ c.parent2 = some p

theorem Reaches.to_parent {c d p : Commit} (h : Reaches c d)
    (hp : IsParent p d) : Reaches c p := by
  cases hp with
  | inl h1 => exact h.to_parent1 h1
  | inr h2 => exact h.to_parent2 h2

/-- Structural size of a commit tree, the termination measure of the
worklist loops. -/
def Commit.weight : Commit → Nat
  | .mk _ _ _ _ _ _ none none => 1
  | .mk _ _ _ _ _ _ (some p) none => 1 + p.weight
  | .mk _ _ _ _ _ _ none (some q) => 1 + q.weight
  | .mk _ _ _ _ _ _ (some p) (some q) => 1 + p.weight + q.weight

/-- Weight of an optional parent pointer's target. -/
def optWeight : Option Commit → Nat
  | none => 0
  | some c => c.weight

/-- Total weight of the pending commits of a worklist. -/
def stackWeight (st : List Commit) : Nat :=
  (st.map Commit.weight).sum

theorem Commit.parents_weight_lt (c : Commit) :
    optWeight c.parent1 + optWeight c.parent2 < c.weight := by
  cases c with
  | mk i m a t th fs p1 p2 =>
      cases p1 <;> cases p2 <;>
        simp [optWeight, Commit.parent1, Commit.parent2, Commit.weight] <;>
        omega

/-- Embeds the visited-checked stack push of
`GraphAlgorithms::get_history_dfs` for one optional parent. -/
def GraphAlgorithms.push_parent (p : Option Commit) (st : List Commit)
    (visited : List String) : List Commit × List String :=
  match p with
  | none => (st, visited)
  | some q =>
      if q.id ∈ visited then (st, visited) else (q :: st, q.id :: visited)

/-- Pushes `parent1` then `parent2` of the popped commit, as the DFS loop
body does (so `parent2` ends on top of the stack). -/
def GraphAlgorithms.push_parents (c : Commit) (st : List Commit)
    (visited : List String) : List Commit × List String :=
  GraphAlgorithms.push_parent c.parent2
    (GraphAlgorithms.push_parent c.parent1 st visited).1
    (GraphAlgorithms.push_parent c.parent1 st visited).2

theorem GraphAlgorithms.push_parent_weight (p : Option Commit)
    (st : List Commit) (vis : List String) :
    stackWeight (GraphAlgorithms.push_parent p st vis).1 ≤
      stackWeight st + optWeight p := by
  cases p with
  | none => simp [GraphAlgorithms.push_parent, optWeight]
  | some q =>
      by_cases h : q.id ∈ vis <;>
        simp [GraphAlgorithms.push_parent, h, optWeight, stackWeight] <;>
        omega

theorem GraphAlgorithms.push_parents_weight (c : Commit) (st : List Commit)
    (vis : List String) :
    stackWeight (GraphAlgorithms.push_parents c st vis).1 <
      c.weight + stackWeight st := by
  have h1 := GraphAlgorithms.push_parent_weight c.parent1 st vis
  have h2 := GraphAlgorithms.push_parent_weight c.parent2
    (GraphAlgorithms.push_parent c.parent1 st vis).1
    (GraphAlgorithms.push_parent c.parent1 st vis).2
  have h3 := Commit.parents_weight_lt c
  simp only [GraphAlgorithms.push_parents]
  omega

/-- Embeds the stack loop of `GraphAlgorithms::get_history_dfs`: pop,
record into the history stack (head = most recent), push unvisited
parents. -/
def GraphAlgorithms.dfs_go :
    List Commit → List String → List Commit → List Commit
  | [], _, history => history
  | curr :: rest, visited, history =>
      GraphAlgorithms.dfs_go (GraphAlgorithms.push_parents curr rest visited).1
        (GraphAlgorithms.push_parents curr rest visited).2 (curr :: history)
termination_by st _ _ => stackWeight st
decreasing_by
  have := GraphAlgorithms.push_parents_weight curr rest visited
  simp only [stackWeight, List.map_cons, List.sum_cons]
  simp only [stackWeight] at this
  omega

/-- Embeds `GraphAlgorithms::get_history_dfs`: the returned history stack
as a list whose head is the most recently pushed commit. -/
def GraphAlgorithms.get_history_dfs (start : Option Commit) : List Commit :=
  match start with
  | none => []
  | some s => GraphAlgorithms.dfs_go [s] [s.id] []

/-- Embeds the visited-checked queue insertion of
`GraphAlgorithms::find_merge_base` for one optional parent. -/
def GraphAlgorithms.enqueue_parent (p : Option Commit) (q : List Commit)
    (visited : List String) : List Commit × List String :=
  match p with
  | none => (q, visited)
  | some c =>
      if c.id ∈ visited then (q, visited) else (q ++ [c], c.id :: visited)

/-- Enqueues `parent1` then `parent2` of the dequeued commit, as both BFS
loop bodies of `find_merge_base` do. -/
def GraphAlgorithms.enqueue_parents (c : Commit) (q : List Commit)
    (visited : List String) : List Commit × List String :=
  GraphAlgorithms.enqueue_parent c.parent2
    (GraphAlgorithms.enqueue_parent c.parent1 q visited).1
    (GraphAlgorithms.enqueue_parent c.parent1 q visited).2

theorem GraphAlgorithms.enqueue_parent_weight (p : Option Commit)
    (q : List Commit) (vis : List String) :
    stackWeight (GraphAlgorithms.enqueue_parent p q vis).1 ≤
      stackWeight q + optWeight p := by
  cases p with
  | none => simp [GraphAlgorithms.enqueue_parent, optWeight]
  | some c =>
      by_cases h : c.id ∈ vis <;>
        simp [GraphAlgorithms.enqueue_parent, h, optWeight, stackWeight] <;>
        omega

theorem GraphAlgorithms.enqueue_parents_weight (c : Commit)
    (q : List Commit) (vis : List String) :
    stackWeight (GraphAlgorithms.enqueue_parents c q vis).1 <
      c.weight + stackWeight q := by
  have h1 := GraphAlgorithms.enqueue_parent_weight c.parent1 q vis
  have h2 := GraphAlgorithms.enqueue_parent_weight c.parent2
    (GraphAlgorithms.enqueue_parent c.parent1 q vis).1
    (GraphAlgorithms.enqueue_parent c.parent1 q vis).2
  have h3 := Commit.parents_weight_lt c
  simp only [GraphAlgorithms.enqueue_parents]
  omega

/-- Embeds the first BFS of `GraphAlgorithms::find_merge_base`: collect the
visited-id set of everything reachable from the start. -/
def GraphAlgorithms.bfs_collect : List Commit → List String → List String
  | [], visited => visited
  | curr :: rest, visited =>
      GraphAlgorithms.bfs_collect
        (GraphAlgorithms.enqueue_parents curr rest visited).1
        (GraphAlgorithms.enqueue_parents curr rest visited).2
termination_by q _ => stackWeight q
decreasing_by
  have := GraphAlgorithms.enqueue_parents_weight curr rest visited
  simp only [stackWeight, List.map_cons, List.sum_cons]
  simp only [stackWeight] at this
  omega

/-- Embeds the second BFS of `GraphAlgorithms::find_merge_base`: return the
first dequeued commit whose id lies in the collected ancestor-id set. -/
def GraphAlgorithms.bfs_find :
    List Commit → List String → List String → Option Commit
  | [], _, _ => none
  | curr :: rest, visited, anc =>
      if curr.id ∈ anc then some curr
      else
        GraphAlgorithms.bfs_find
          (GraphAlgorithms.enqueue_parents curr rest visited).1
          (GraphAlgorithms.enqueue_parents curr rest visited).2 anc
termination_by q _ _ => stackWeight q
decreasing_by
  have := GraphAlgorithms.enqueue_parents_weight curr rest visited
  simp only [stackWeight, List.map_cons, List.sum_cons]
  simp only [stackWeight] at this
  omega

/-- Embeds `GraphAlgorithms::find_merge_base`. -/
def GraphAlgorithms.find_merge_base (c1 c2 : Option Commit) : Option Commit :=
  match c1, c2 with
  | none, _ => none
  | some _, none => none
  | some a, some b =>
      if a.id = b.id then some a
      else
        GraphAlgorithms.bfs_find [b] [b.id]
          (GraphAlgorithms.bfs_collect [a] [a.id])

/- ### DFS invariants and C5 -/

/-- The ids of a list of commits. -/
def idsOf (l : List Commit) : List String :=
  l.map Commit.id

theorem GraphAlgorithms.push_parent_mem {p : Option Commit}
    {st : List Commit} {vis : List String} {x : Commit}
    (hx : x ∈ (GraphAlgorithms.push_parent p st vis).1) :
    x ∈ st ∨ p = some x := by
  cases p with
  | none => exact Or.inl hx
  | some q =>
      by_cases h : q.id ∈ vis
      · simp only [GraphAlgorithms.push_parent, if_pos h] at hx
        exact Or.inl hx
      · simp only [GraphAlgorithms.push_parent, if_neg h] at hx
        rcases List.mem_cons.mp hx with h1 | h1
        · exact Or.inr (by rw [h1])
        · exact Or.inl h1

theorem GraphAlgorithms.push_parent_st_sub {p : Option Commit}
    {st : List Commit} {vis : List String} {x : Commit} (hx : x ∈ st) :
    x ∈ (GraphAlgorithms.push_parent p st vis).1 := by
  cases p with
  | none => exact hx
  | some q =>
      by_cases h : q.id ∈ vis
      · simp only [GraphAlgorithms.push_parent, if_pos h]
        exact hx
      · simp only [GraphAlgorithms.push_parent, if_neg h]
        exact List.mem_cons_of_mem _ hx

theorem GraphAlgorithms.push_parent_vis_sub {p : Option Commit}
    {st : List Commit} {vis : List String} {s : String} (hs : s ∈ vis) :
    s ∈ (GraphAlgorithms.push_parent p st vis).2 := by
  cases p with
  | none => exact hs
  | some q =>
      by_cases h : q.id ∈ vis
      · simp only [GraphAlgorithms.push_parent, if_pos h]
        exact hs
      · simp only [GraphAlgorithms.push_parent, if_neg h]
        exact List.mem_cons_of_mem _ hs

theorem GraphAlgorithms.push_parent_parent_vis {q : Commit}
    {st : List Commit} {vis : List String} :
    q.id ∈ (GraphAlgorithms.push_parent (some q) st vis).2 := by
  by_cases h : q.id ∈ vis
  · simp only [GraphAlgorithms.push_parent, if_pos h]
    exact h
  · simp only [GraphAlgorithms.push_parent, if_neg h]
    exact List.mem_cons_self _ _

theorem GraphAlgorithms.push_parent_inv {p : Option Commit}
    {st acc : List Commit} {vis : List String}
    (hsub : ∀ s ∈ idsOf (st ++ acc), s ∈ vis)
    (hnd : (idsOf (st ++ acc)).Nodup) :
    (∀ s ∈ idsOf ((GraphAlgorithms.push_parent p st vis).1 ++ acc),
        s ∈ (GraphAlgorithms.push_parent p st vis).2) ∧
    (idsOf ((GraphAlgorithms.push_parent p st vis).1 ++ acc)).Nodup := by
  cases p with
  | none => exact ⟨hsub, hnd⟩
  | some q =>
      by_cases h : q.id ∈ vis
      · simp only [GraphAlgorithms.push_parent, if_pos h]
        exact ⟨hsub, hnd⟩
      · simp only [GraphAlgorithms.push_parent, if_neg h]
        constructor
        · intro s hs
          simp only [idsOf, List.cons_append, List.map_cons,
            List.mem_cons] at hs
          rcases hs with h1 | h1
          · exact List.mem_cons.mpr (Or.inl h1)
          · exact List.mem_cons_of_mem _ (hsub s h1)
        · simp only [idsOf, List.cons_append, List.map_cons, List.nodup_cons]
          exact ⟨fun hmem => h (hsub _ hmem), hnd⟩

theorem GraphAlgorithms.push_parent_coinv {p : Option Commit}
    {st acc : List Commit} {vis : List String}
    (hvs : ∀ s ∈ vis, s ∈ idsOf (st ++ acc)) :
    ∀ s ∈ (GraphAlgorithms.push_parent p st vis).2,
      s ∈ idsOf ((GraphAlgorithms.push_parent p st vis).1 ++ acc) := by
  cases p with
  | none => exact hvs
  | some q =>
      by_cases h : q.id ∈ vis
      · simp only [GraphAlgorithms.push_parent, if_pos h]
        exact hvs
      · simp only [GraphAlgorithms.push_parent, if_neg h]
        intro s hs
        simp only [idsOf, List.cons_append, List.map_cons, List.mem_cons]
        rcases List.mem_cons.mp hs with h1 | h1
        · exact Or.inl h1
        · exact Or.inr (hvs s h1)

theorem GraphAlgorithms.push_parents_mem {c : Commit}
    {st : List Commit} {vis : List String} {x : Commit}
    (hx : x ∈ (GraphAlgorithms.push_parents c st vis).1) :
    x ∈ st ∨ IsParent x c := by
  rcases GraphAlgorithms.push_parent_mem hx with h1 | h1
  · rcases GraphAlgorithms.push_parent_mem h1 with h2 | h2
    · exact Or.inl h2
    · exact Or.inr (Or.inl h2)
  · exact Or.inr (Or.inr h1)

theorem GraphAlgorithms.push_parents_st_sub {c : Commit}
    {st : List Commit} {vis : List String} {x : Commit} (hx : x ∈ st) :
    x ∈ (GraphAlgorithms.push_parents c st vis).1 :=
  GraphAlgorithms.push_parent_st_sub (GraphAlgorithms.push_parent_st_sub hx)

theorem GraphAlgorithms.push_parents_vis_sub {c : Commit}
    {st : List Commit} {vis : List String} {s : String} (hs : s ∈ vis) :
    s ∈ (GraphAlgorithms.push_parents c st vis).2 :=
  GraphAlgorithms.push_parent_vis_sub (GraphAlgorithms.push_parent_vis_sub hs)

theorem GraphAlgorithms.push_parents_parent_vis {c p : Commit}
    {st : List Commit} {vis : List String} (hp : IsParent p c) :
    p.id ∈ (GraphAlgorithms.push_parents c st vis).2 := by
  rcases hp with h1 | h1
  · rw [GraphAlgorithms.push_parents, h1]
    exact GraphAlgorithms.push_parent_vis_sub
      (p := c.parent2) GraphAlgorithms.push_parent_parent_vis
  · rw [GraphAlgorithms.push_parents, h1]
    exact GraphAlgorithms.push_parent_parent_vis

theorem GraphAlgorithms.push_parents_inv {c : Commit}
    {st acc : List Commit} {vis : List String}
    (hsub : ∀ s ∈ idsOf (st ++ acc), s ∈ vis)
    (hnd : (idsOf (st ++ acc)).Nodup) :
    (∀ s ∈ idsOf ((GraphAlgorithms.push_parents c st vis).1 ++ acc),
        s ∈ (GraphAlgorithms.push_parents c st vis).2) ∧
    (idsOf ((GraphAlgorithms.push_parents c st vis).1 ++ acc)).Nodup := by
  have h1 := GraphAlgorithms.push_parent_inv (p := c.parent1) hsub hnd
  exact GraphAlgorithms.push_parent_inv (p := c.parent2) h1.1 h1.2

theorem GraphAlgorithms.push_parents_coinv {c : Commit}
    {st acc : List Commit} {vis : List String}
    (hvs : ∀ s ∈ vis, s ∈ idsOf (st ++ acc)) :
    ∀ s ∈ (GraphAlgorithms.push_parents c st vis).2,
      s ∈ idsOf ((GraphAlgorithms.push_parents c st vis).1 ++ acc) :=
  GraphAlgorithms.push_parent_coinv
    (GraphAlgorithms.push_parent_coinv hvs)

theorem GraphAlgorithms.dfs_go_sound :
    ∀ (st : List Commit) (vis : List String) (hist : List Commit),
      ∀ x ∈ GraphAlgorithms.dfs_go st vis hist,
        x ∈ hist ∨ ∃ s ∈ st, Reaches s x := by
  intro st vis hist
  induction st, vis, hist using GraphAlgorithms.dfs_go.induct with
  | case1 vis2 hist2 =>
      intro x hx
      rw [GraphAlgorithms.dfs_go] at hx
      exact Or.inl hx
  | case2 curr rest visited history ih =>
      intro x hx
      rw [GraphAlgorithms.dfs_go] at hx
      rcases ih x hx with h1 | ⟨s, hs, hr⟩
      · rcases List.mem_cons.mp h1 with h2 | h2
        · exact Or.inr ⟨curr, List.mem_cons_self _ _, h2 ▸ Reaches.refl curr⟩
        · exact Or.inl h2
      · rcases GraphAlgorithms.push_parents_mem hs with h2 | h2
        · exact Or.inr ⟨s, List.mem_cons_of_mem _ h2, hr⟩
        · rcases h2 with h3 | h3
          · exact Or.inr ⟨curr, List.mem_cons_self _ _, Reaches.parent1 h3 hr⟩
          · exact Or.inr ⟨curr, List.mem_cons_self _ _, Reaches.parent2 h3 hr⟩

theorem GraphAlgorithms.dfs_go_mono :
    ∀ (st : List Commit) (vis : List String) (hist : List Commit) (x : Commit),
      (x ∈ st ∨ x ∈ hist) → x ∈ GraphAlgorithms.dfs_go st vis hist := by
  intro st vis hist
  induction st, vis, hist using GraphAlgorithms.dfs_go.induct with
  | case1 vis2 hist2 =>
      intro x hx
      rw [GraphAlgorithms.dfs_go]
      rcases hx with hx | hx
      · cases hx
      · exact hx
  | case2 curr rest visited history ih =>
      intro x hx
      rw [GraphAlgorithms.dfs_go]
      rcases hx with hx | hx
      · rcases List.mem_cons.mp hx with h1 | h1
        · exact ih x (Or.inr (by rw [h1]; exact List.mem_cons_self _ _))
        · exact ih x (Or.inl (GraphAlgorithms.push_parents_st_sub h1))
      · exact ih x (Or.inr (List.mem_cons_of_mem _ hx))

theorem GraphAlgorithms.dfs_go_nodup :
    ∀ (st : List Commit) (vis : List String) (hist : List Commit),
      (∀ s ∈ idsOf (st ++ hist), s ∈ vis) →
      (idsOf (st ++ hist)).Nodup →
      (idsOf (GraphAlgorithms.dfs_go st vis hist)).Nodup := by
  intro st vis hist
  induction st, vis, hist using GraphAlgorithms.dfs_go.induct with
  | case1 vis2 hist2 =>
      intro _ hnd
      rw [GraphAlgorithms.dfs_go]
      simpa using hnd
  | case2 curr rest visited history ih =>
      intro hsub hnd
      rw [GraphAlgorithms.dfs_go]
      have hperm : (idsOf (rest ++ curr :: history)).Perm
          (idsOf ((curr :: rest) ++ history)) := by
        simpa [idsOf] using (@List.perm_middle _ curr rest history).map
          Commit.id
      have hsub0 : ∀ s ∈ idsOf (rest ++ curr :: history), s ∈ visited :=
        fun s hs => hsub s (hperm.mem_iff.mp hs)
      have hnd0 : (idsOf (rest ++ curr :: history)).Nodup :=
        hperm.nodup_iff.mpr hnd
      have hstep := @GraphAlgorithms.push_parents_inv curr rest
        (curr :: history) visited hsub0 hnd0
      exact ih hstep.1 hstep.2

theorem GraphAlgorithms.dfs_go_closed :
    ∀ (st : List Commit) (vis : List String) (hist : List Commit),
      (∀ s ∈ vis, s ∈ idsOf (st ++ hist)) →
      (∀ c ∈ hist, ∀ p : Commit, IsParent p c → p.id ∈ vis) →
      ∀ c ∈ GraphAlgorithms.dfs_go st vis hist, ∀ p : Commit,
        IsParent p c → p.id ∈ idsOf (GraphAlgorithms.dfs_go st vis hist) := by
  intro st vis hist
  induction st, vis, hist using GraphAlgorithms.dfs_go.induct with
  | case1 vis2 hist2 =>
      intro hvs hpar
      rw [GraphAlgorithms.dfs_go]
      intro c hc p hp
      simpa using hvs p.id (hpar c hc p hp)
  | case2 curr rest visited history ih =>
      intro hvs hpar
      rw [GraphAlgorithms.dfs_go]
      have hperm : (idsOf (rest ++ curr :: history)).Perm
          (idsOf ((curr :: rest) ++ history)) := by
        simpa [idsOf] using (@List.perm_middle _ curr rest history).map
          Commit.id
      have hvs0 : ∀ s ∈ visited, s ∈ idsOf (rest ++ curr :: history) :=
        fun s hs => hperm.mem_iff.mpr (hvs s hs)
      have hvs1 := @GraphAlgorithms.push_parents_coinv curr rest
        (curr :: history) visited hvs0
      have hpar1 : ∀ c2 ∈ curr :: history, ∀ p : Commit, IsParent p c2 →
          p.id ∈ (GraphAlgorithms.push_parents curr rest visited).2 := by
        intro c2 hc2 p hp
        rcases List.mem_cons.mp hc2 with h1 | h1
        · exact GraphAlgorithms.push_parents_parent_vis (h1 ▸ hp)
        · exact GraphAlgorithms.push_parents_vis_sub (hpar c2 h1 p hp)
      exact ih hvs1 hpar1

/-- C5: for an acyclic commit graph whose reachable commits have pairwise
distinct ids, `get_history_dfs(tip)` lists exactly the commits reachable
from `tip` via parent edges, each exactly once; a null start yields an
empty result. -/
theorem get_history_dfs_complete (tip : Commit)
    (hinj : ∀ c d : Commit, Reaches tip c → Reaches tip d →
      c.id = d.id → c = d) :
    (∀ c, c ∈ GraphAlgorithms.get_history_dfs (some tip) ↔ Reaches tip c) ∧
    (GraphAlgorithms.get_history_dfs (some tip)).Nodup ∧
    GraphAlgorithms.get_history_dfs none = [] := by
  have hres : GraphAlgorithms.get_history_dfs (some tip) =
      GraphAlgorithms.dfs_go [tip] [tip.id] [] := rfl
  have hsound : ∀ c ∈ GraphAlgorithms.get_history_dfs (some tip),
      Reaches tip c := by
    intro c hc
    rw [hres] at hc
    rcases GraphAlgorithms.dfs_go_sound _ _ _ c hc with h | ⟨s, hs, hr⟩
    · cases h
    · rcases List.mem_cons.mp hs with h1 | h1
      · exact h1 ▸ hr
      · cases h1
  have htip : tip ∈ GraphAlgorithms.get_history_dfs (some tip) := by
    rw [hres]
    exact GraphAlgorithms.dfs_go_mono _ _ _ tip
      (Or.inl (List.mem_cons_self _ _))
  have hclosed : ∀ c ∈ GraphAlgorithms.get_history_dfs (some tip),
      ∀ p : Commit, IsParent p c →
        p.id ∈ idsOf (GraphAlgorithms.get_history_dfs (some tip)) := by
    rw [hres]
    exact GraphAlgorithms.dfs_go_closed [tip] [tip.id] []
      (by intro s hs; simpa [idsOf] using (List.mem_singleton.mp hs))
      (by intro c hc; cases hc)
  have hmemparent : ∀ c ∈ GraphAlgorithms.get_history_dfs (some tip),
      ∀ p : Commit, IsParent p c →
        p ∈ GraphAlgorithms.get_history_dfs (some tip) := by
    intro c hc p hp
    have hid := hclosed c hc p hp
    simp only [idsOf, List.mem_map] at hid
    rcases hid with ⟨q, hq, hqid⟩
    have hq_r : Reaches tip q := hsound q hq
    have hp_r : Reaches tip p := (hsound c hc).to_parent hp
    have : q = p := hinj q p hq_r hp_r hqid
    exact this ▸ hq
  have hcompl : ∀ c d : Commit, Reaches c d →
      c ∈ GraphAlgorithms.get_history_dfs (some tip) →
      d ∈ GraphAlgorithms.get_history_dfs (some tip) := by
    intro c d hr
    induction hr with
    | refl c => exact fun h => h
    | parent1 h1 _ ih =>
        intro hc
        exact ih (hmemparent _ hc _ (Or.inl h1))
    | parent2 h2 _ ih =>
        intro hc
        exact ih (hmemparent _ hc _ (Or.inr h2))
  refine ⟨fun c => ⟨hsound c, fun hr => hcompl tip c hr htip⟩, ?_, rfl⟩
  have hidnd : (idsOf (GraphAlgorithms.get_history_dfs (some tip))).Nodup := by
    rw [hres]
    exact GraphAlgorithms.dfs_go_nodup [tip] [tip.id] []
      (by intro s hs; simpa [idsOf] using (by simpa [idsOf] using hs))
      (by simp [idsOf])
  exact List.Nodup.of_map _ hidnd

/-- Witness for C5 at a concrete input: a single parentless commit is its
own complete history, and a null start gives the empty history. -/
theorem get_history_dfs_complete_witness :
    Commit.mk "r" "m" "u" 0 "t" [] none none ∈
      GraphAlgorithms.get_history_dfs
        (some (Commit.mk "r" "m" "u" 0 "t" [] none none)) ∧
    GraphAlgorithms.get_history_dfs none = [] := by
  have hinj : ∀ c d : Commit,
      Reaches (Commit.mk "r" "m" "u" 0 "t" [] none none) c →
      Reaches (Commit.mk "r" "m" "u" 0 "t" [] none none) d →
      c.id = d.id → c = d := by
    intro c d hc hd _
    rw [hc.eq_of_no_parents rfl rfl, hd.eq_of_no_parents rfl rfl]
  have h := get_history_dfs_complete (Commit.mk "r" "m" "u" 0 "t" [] none none)
    hinj
  exact ⟨(h.1 _).mpr (Reaches.refl _), h.2.2⟩

/- ### BFS invariants and C4 -/

theorem GraphAlgorithms.enqueue_parent_mem {p : Option Commit}
    {q : List Commit} {vis : List String} {x : Commit}
    (hx : x ∈ (GraphAlgorithms.enqueue_parent p q vis).1) :
    x ∈ q ∨ p = some x := by
  cases p with
  | none => exact Or.inl hx
  | some c =>
      by_cases h : c.id ∈ vis
      · simp only [GraphAlgorithms.enqueue_parent, if_pos h] at hx
        exact Or.inl hx
      · simp only [GraphAlgorithms.enqueue_parent, if_neg h] at hx
        rcases List.mem_append.mp hx with h1 | h1
        · exact Or.inl h1
        · exact Or.inr (by rw [List.mem_singleton.mp h1])

theorem GraphAlgorithms.enqueue_parent_vis_mem {p : Option Commit}
    {q : List Commit} {vis : List String} {s : String}
    (hs : s ∈ (GraphAlgorithms.enqueue_parent p q vis).2) :
    s ∈ vis ∨ ∃ c, p = some c ∧ s = c.id := by
  cases p with
  | none => exact Or.inl hs
  | some c =>
      by_cases h : c.id ∈ vis
      · simp only [GraphAlgorithms.enqueue_parent, if_pos h] at hs
        exact Or.inl hs
      · simp only [GraphAlgorithms.enqueue_parent, if_neg h] at hs
        rcases List.mem_cons.mp hs with h1 | h1
        · exact Or.inr ⟨c, rfl, h1⟩
        · exact Or.inl h1

theorem GraphAlgorithms.enqueue_parents_mem {c : Commit}
    {q : List Commit} {vis : List String} {x : Commit}
    (hx : x ∈ (GraphAlgorithms.enqueue_parents c q vis).1) :
    x ∈ q ∨ IsParent x c := by
  rcases GraphAlgorithms.enqueue_parent_mem hx with h1 | h1
  · rcases GraphAlgorithms.enqueue_parent_mem h1 with h2 | h2
    · exact Or.inl h2
    · exact Or.inr (Or.inl h2)
  · exact Or.inr (Or.inr h1)

theorem GraphAlgorithms.enqueue_parents_vis_mem {c : Commit}
    {q : List Commit} {vis : List String} {s : String}
    (hs : s ∈ (GraphAlgorithms.enqueue_parents c q vis).2) :
    s ∈ vis ∨ ∃ p, IsParent p c ∧ s = p.id := by
  rcases GraphAlgorithms.enqueue_parent_vis_mem hs with h1 | ⟨p, hp, hsp⟩
  · rcases GraphAlgorithms.enqueue_parent_vis_mem h1 with h2 | ⟨p, hp, hsp⟩
    · exact Or.inl h2
    · exact Or.inr ⟨p, Or.inl hp, hsp⟩
  · exact Or.inr ⟨p, Or.inr hp, hsp⟩

theorem GraphAlgorithms.bfs_collect_sound (a : Commit) :
    ∀ (q : List Commit) (vis : List String),
      (∀ c ∈ q, Reaches a c) →
      (∀ s ∈ vis, ∃ c, Reaches a c ∧ c.id = s) →
      ∀ s ∈ GraphAlgorithms.bfs_collect q vis,
        ∃ c, Reaches a c ∧ c.id = s := by
  intro q vis
  induction q, vis using GraphAlgorithms.bfs_collect.induct with
  | case1 vis2 =>
      intro _ hvis s hs
      rw [GraphAlgorithms.bfs_collect] at hs
      exact hvis s hs
  | case2 curr rest visited ih =>
      intro hq hvis s hs
      rw [GraphAlgorithms.bfs_collect] at hs
      have hcurr : Reaches a curr := hq curr (List.mem_cons_self _ _)
      refine ih ?_ ?_ s hs
      · intro c hc
        rcases GraphAlgorithms.enqueue_parents_mem hc with h1 | h1
        · exact hq c (List.mem_cons_of_mem _ h1)
        · exact hcurr.to_parent h1
      · intro s2 hs2
        rcases GraphAlgorithms.enqueue_parents_vis_mem hs2 with h1 | ⟨p, hp, hsp⟩
        · exact hvis s2 h1
        · exact ⟨p, hcurr.to_parent hp, hsp.symm⟩

theorem GraphAlgorithms.bfs_find_sound (b : Commit) :
    ∀ (q : List Commit) (vis anc : List String) (r : Commit),
      (∀ c ∈ q, Reaches b c) →
      GraphAlgorithms.bfs_find q vis anc = some r →
      Reaches b r ∧ r.id ∈ anc := by
  intro q vis anc
  induction q, vis, anc using GraphAlgorithms.bfs_find.induct with
  | case1 vis2 anc2 =>
      intro r _ hr
      rw [GraphAlgorithms.bfs_find] at hr
      cases hr
  | case2 curr rest visited anc2 hhit =>
      intro r hq hr
      rw [GraphAlgorithms.bfs_find, if_pos hhit] at hr
      cases hr
      exact ⟨hq curr (List.mem_cons_self _ _), hhit⟩
  | case3 curr rest visited anc2 hmiss ih =>
      intro r hq hr
      rw [GraphAlgorithms.bfs_find, if_neg hmiss] at hr
      have hcurr : Reaches b curr := hq curr (List.mem_cons_self _ _)
      refine ih r ?_ hr
      intro c hc
      rcases GraphAlgorithms.enqueue_parents_mem hc with h1 | h1
      · exact hq c (List.mem_cons_of_mem _ h1)
      · exact hcurr.to_parent h1

/-- C4: with pairwise-distinct commit ids across the two histories (the
repository invariant of the content-addressed store), a non-null result of
`find_merge_base(a, b)` is reachable from `a` and from `b` via parent
edges. -/
theorem find_merge_base_reachable (a b r : Commit)
    (hinj : ∀ c d : Commit, (Reaches a c ∨ Reaches b c) →
      (Reaches a d ∨ Reaches b d) → c.id = d.id → c = d)
    (hr : GraphAlgorithms.find_merge_base (some a) (some b) = some r) :
    Reaches a r ∧ Reaches b r := by
  rw [GraphAlgorithms.find_merge_base] at hr
  by_cases hid : a.id = b.id
  · rw [if_pos hid] at hr
    cases hr
    have hab : a = b := hinj a b (Or.inl (Reaches.refl a))
      (Or.inr (Reaches.refl b)) hid
    exact ⟨Reaches.refl a, hab ▸ Reaches.refl a⟩
  · rw [if_neg hid] at hr
    have hfind := GraphAlgorithms.bfs_find_sound b [b] [b.id]
      (GraphAlgorithms.bfs_collect [a] [a.id]) r
      (by
        intro c hc
        rw [List.mem_singleton.mp hc]
        exact Reaches.refl b) hr
    have hcoll := GraphAlgorithms.bfs_collect_sound a [a] [a.id]
      (by
        intro c hc
        rw [List.mem_singleton.mp hc]
        exact Reaches.refl a)
      (by
        intro s hs
        exact ⟨a, Reaches.refl a, (List.mem_singleton.mp hs).symm⟩)
      r.id hfind.2
    rcases hcoll with ⟨c, hc, hcid⟩
    have : c = r := hinj c r (Or.inl hc) (Or.inr hfind.1) hcid
    exact ⟨this ▸ hc, hfind.1⟩

/-- Witness for C4 at a concrete input: the merge base of a single
parentless commit with itself is that commit, reachable from both sides. -/
theorem find_merge_base_reachable_witness :
    Reaches (Commit.mk "r" "m" "u" 0 "t" [] none none)
      (Commit.mk "r" "m" "u" 0 "t" [] none none) ∧
    Reaches (Commit.mk "r" "m" "u" 0 "t" [] none none)
      (Commit.mk "r" "m" "u" 0 "t" [] none none) := by
  refine find_merge_base_reachable
    (Commit.mk "r" "m" "u" 0 "t" [] none none)
    (Commit.mk "r" "m" "u" 0 "t" [] none none)
    (Commit.mk "r" "m" "u" 0 "t" [] none none) ?_ rfl
  intro c d hc hd _
  have hc2 : c = Commit.mk "r" "m" "u" 0 "t" [] none none := by
    rcases hc with h | h <;> exact h.eq_of_no_parents rfl rfl
  have hd2 : d = Commit.mk "r" "m" "u" 0 "t" [] none none := by
    rcases hd with h | h <;> exact h.eq_of_no_parents rfl rfl
  rw [hc2, hd2]

/- ### Merge engine (`core::MergeEngine`) -/

/-- Embeds `MergeEngine::create_file_map`: path → hash over a commit's
file list (empty for a null commit). -/
def MergeEngine.create_file_map (c : Option Commit) : HashTable String String :=
  match c with
  | none => []
  | some c => c.files.foldl (fun m f => HashTable.put m f.path f.hash) []

/-- The `contains ? get : ""` lookup pattern of both merge loops. -/
def MergeEngine.hash_for (m : HashTable String String) (path : String) :
    String :=
  (HashTable.find m path).getD ""

/-- Embeds one iteration of the first (`ours`) loop of
`MergeEngine::merge_commits`: the files pushed and the conflict text
appended for one file of `ours`. -/
def MergeEngine.merge_ours_step (H : String → String) (gm : GraphManager)
    (map_theirs map_base : HashTable String String) (theirs_id : String)
    (f : File) : List File × String :=
  if MergeEngine.hash_for map_theirs f.path = "" then
    if MergeEngine.hash_for map_base f.path = "" then ([f], "")
    else if MergeEngine.hash_for map_base f.path = f.hash then ([], "")
    else ([f], "CONFLICT (Modify/Delete): " ++ f.path ++ "\n")
  else if f.hash = MergeEngine.hash_for map_theirs f.path then ([f], "")
  else if f.hash = MergeEngine.hash_for map_base f.path then
    ([File.set_hash_manual (File.make H f.path "")
        (MergeEngine.hash_for map_theirs f.path)], "")
  else if MergeEngine.hash_for map_theirs f.path =
      MergeEngine.hash_for map_base f.path then ([f], "")
  else
    ([File.make H f.path
        ("<<<<<<< HEAD\n" ++ gm.get_blob_content f.hash ++ "\n" ++
          "=======\n" ++
          gm.get_blob_content (MergeEngine.hash_for map_theirs f.path) ++
          "\n" ++ ">>>>>>> " ++ theirs_id.take 7 ++ "\n")],
      "CONFLICT (Content): " ++ f.path ++ "\n")

/-- The first (`ours`) loop of `MergeEngine::merge_commits`: result files
and conflict report accumulate in iteration order. -/
def MergeEngine.merge_ours_pass (H : String → String) (gm : GraphManager)
    (map_theirs map_base : HashTable String String) (theirs_id : String) :
    List File → List File × String
  | [] => ([], "")
  | f :: rest =>
      ((MergeEngine.merge_ours_step H gm map_theirs map_base theirs_id f).1 ++
          (MergeEngine.merge_ours_pass H gm map_theirs map_base theirs_id rest).1,
        (MergeEngine.merge_ours_step H gm map_theirs map_base theirs_id f).2 ++
          (MergeEngine.merge_ours_pass H gm map_theirs map_base theirs_id rest).2)

/-- Embeds one iteration of the second (`theirs`) loop of
`MergeEngine::merge_commits`: paths already present in `ours` are
skipped. -/
def MergeEngine.merge_theirs_step
    (map_ours map_base : HashTable String String) (f : File) :
    List File × String :=
  if HashTable.contains map_ours f.path then ([], "")
  else if MergeEngine.hash_for map_base f.path = "" then ([f], "")
  else if f.hash = MergeEngine.hash_for map_base f.path then ([], "")
  else ([f], "CONFLICT (Delete/Modify): " ++ f.path ++ "\n")

/-- The second (`theirs`) loop of `MergeEngine::merge_commits`. -/
def MergeEngine.merge_theirs_pass
    (map_ours map_base : HashTable String String) :
    List File → List File × String
  | [] => ([], "")
  | f :: rest =>
      ((MergeEngine.merge_theirs_step map_ours map_base f).1 ++
          (MergeEngine.merge_theirs_pass map_ours map_base rest).1,
        (MergeEngine.merge_theirs_step map_ours map_base f).2 ++
          (MergeEngine.merge_theirs_pass map_ours map_base rest).2)

/-- Embeds `MergeEngine::merge_commits`: merged file list and accumulated
conflict report.  (The `all_paths` table of the source is computed but
never read, so it has no counterpart here.) -/
def MergeEngine.merge_commits (H : String → String) (ours theirs : Commit)
    (gm : GraphManager) : List File × String :=
  let map_theirs := MergeEngine.create_file_map (some theirs)
  let map_base := MergeEngine.create_file_map
    (GraphAlgorithms.find_merge_base (some ours) (some theirs))
  let map_ours := MergeEngine.create_file_map (some ours)
  let r1 := MergeEngine.merge_ours_pass H gm map_theirs map_base theirs.id
    ours.files
  let r2 := MergeEngine.merge_theirs_pass map_ours map_base theirs.files
  (r1.1 ++ r2.1, r1.2 ++ r2.2)

/- ### Lemmas on the path → hash map -/

theorem HashTable.find_put_other {K V : Type} [DecidableEq K]
    (m : HashTable K V) {k k' : K} (v : V) (hne : k ≠ k') :
    HashTable.find (HashTable.put m k v) k' = HashTable.find m k' := by
  induction m with
  | nil => simp [HashTable.put, HashTable.find, hne]
  | cons e rest ih =>
      by_cases h : e.1 = k
      · simp [HashTable.put, HashTable.find, h, hne]
      · simp only [HashTable.put, if_neg h]
        by_cases h2 : e.1 = k'
        · simp [HashTable.find, h2]
        · simp [HashTable.find, h2, ih]

theorem MergeEngine.find_foldl_put_absent (l : List File)
    (m : HashTable String String) (p : String)
    (habs : p ∉ l.map File.path) :
    HashTable.find
      (l.foldl (fun m f => HashTable.put m f.path f.hash) m) p =
      HashTable.find m p := by
  induction l generalizing m with
  | nil => rfl
  | cons g rest ih =>
      simp only [List.map_cons, List.mem_cons] at habs
      push_neg at habs
      simp only [List.foldl_cons]
      rw [ih _ habs.2, HashTable.find_put_other _ _ (fun h => habs.1 h.symm)]

theorem MergeEngine.find_foldl_put_of_mem (l : List File)
    (m : HashTable String String) (f : File) (hmem : f ∈ l)
    (hnd : (l.map File.path).Nodup) :
    HashTable.find
      (l.foldl (fun m f => HashTable.put m f.path f.hash) m) f.path =
      some f.hash := by
  induction l generalizing m with
  | nil => cases hmem
  | cons g rest ih =>
      simp only [List.map_cons, List.nodup_cons] at hnd
      rcases List.mem_cons.mp hmem with h1 | h1
      · subst h1
        simp only [List.foldl_cons]
        rw [MergeEngine.find_foldl_put_absent rest _ _ hnd.1,
          HashTable.find_put_self]
      · simp only [List.foldl_cons]
        exact ih _ h1 hnd.2

theorem HashTable.contains_put {K V : Type} [DecidableEq K]
    (m : HashTable K V) (k k' : K) (v : V) :
    HashTable.contains (HashTable.put m k v) k' = true ↔
      (k' = k ∨ HashTable.contains m k' = true) := by
  by_cases h : k = k'
  · subst h
    simp [HashTable.contains, HashTable.find_put_self]
  · show (HashTable.find (HashTable.put m k v) k').isSome = true ↔ _
    rw [HashTable.find_put_other _ _ h]
    constructor
    · exact fun hc => Or.inr hc
    · intro hc
      rcases hc with hc | hc
      · exact absurd hc.symm h
      · exact hc

theorem MergeEngine.contains_foldl_put (l : List File)
    (m : HashTable String String) (p : String) :
    HashTable.contains
        (l.foldl (fun m f => HashTable.put m f.path f.hash) m) p = true ↔
      p ∈ l.map File.path ∨ HashTable.contains m p = true := by
  induction l generalizing m with
  | nil => simp
  | cons g rest ih =>
      simp only [List.foldl_cons, List.map_cons, List.mem_cons]
      rw [ih]
      rw [HashTable.contains_put m g.path p g.hash]
      tauto

theorem MergeEngine.contains_file_map (c : Commit) (p : String) :
    HashTable.contains (MergeEngine.create_file_map (some c)) p = true ↔
      p ∈ c.files.map File.path := by
  rw [MergeEngine.create_file_map]
  rw [MergeEngine.contains_foldl_put]
  simp [HashTable.contains, HashTable.find]

theorem MergeEngine.hash_for_file_map (c : Commit) (f : File)
    (hmem : f ∈ c.files) (hnd : (c.files.map File.path).Nodup) :
    MergeEngine.hash_for (MergeEngine.create_file_map (some c)) f.path =
      f.hash := by
  rw [MergeEngine.hash_for, MergeEngine.create_file_map,
    MergeEngine.find_foldl_put_of_mem _ _ _ hmem hnd]
  rfl

theorem MergeEngine.hash_for_absent (c : Commit) (p : String)
    (habs : p ∉ c.files.map File.path) :
    MergeEngine.hash_for (MergeEngine.create_file_map (some c)) p = "" := by
  rw [MergeEngine.hash_for, MergeEngine.create_file_map,
    MergeEngine.find_foldl_put_absent _ _ _ habs]
  rfl

/- ### Merge-pass lemmas -/

theorem MergeEngine.merge_ours_step_path (H : String → String)
    (gm : GraphManager) (mt mb : HashTable String String) (tid : String)
    (f : File) :
    ∀ x ∈ (MergeEngine.merge_ours_step H gm mt mb tid f).1,
      x.path = f.path := by
  intro x hx
  simp only [MergeEngine.merge_ours_step] at hx
  split_ifs at hx <;>
    simp only [List.mem_singleton, List.not_mem_nil] at hx
  · rw [hx]
  · rw [hx]
  · rw [hx]
  · rw [hx]
    simp [File.make, File.set_hash_manual]
  · rw [hx]
  · rw [hx]
    simp [File.make]

theorem MergeEngine.merge_ours_pass_append (H : String → String)
    (gm : GraphManager) (mt mb : HashTable String String) (tid : String)
    (l1 l2 : List File) :
    MergeEngine.merge_ours_pass H gm mt mb tid (l1 ++ l2) =
      ((MergeEngine.merge_ours_pass H gm mt mb tid l1).1 ++
          (MergeEngine.merge_ours_pass H gm mt mb tid l2).1,
        (MergeEngine.merge_ours_pass H gm mt mb tid l1).2 ++
          (MergeEngine.merge_ours_pass H gm mt mb tid l2).2) := by
  induction l1 with
  | nil => simp [MergeEngine.merge_ours_pass]
  | cons g rest ih =>
      simp only [List.cons_append, MergeEngine.merge_ours_pass,
        List.append_eq, ih]
      rw [List.append_assoc, String.append_assoc]

theorem MergeEngine.merge_ours_pass_mem_path (H : String → String)
    (gm : GraphManager) (mt mb : HashTable String String) (tid : String)
    (l : List File) :
    ∀ x ∈ (MergeEngine.merge_ours_pass H gm mt mb tid l).1,
      ∃ g ∈ l, x.path = g.path := by
  induction l with
  | nil => intro x hx; cases hx
  | cons g rest ih =>
      intro x hx
      simp only [MergeEngine.merge_ours_pass] at hx
      rcases List.mem_append.mp hx with h1 | h1
      · exact ⟨g, List.mem_cons_self _ _,
          MergeEngine.merge_ours_step_path H gm mt mb tid g x h1⟩
      · rcases ih x h1 with ⟨g2, hg2, hp⟩
        exact ⟨g2, List.mem_cons_of_mem _ hg2, hp⟩

theorem MergeEngine.merge_theirs_step_mem
    (mo mb : HashTable String String) (f : File) :
    ∀ x ∈ (MergeEngine.merge_theirs_step mo mb f).1,
      x = f ∧ HashTable.contains mo f.path = false := by
  intro x hx
  simp only [MergeEngine.merge_theirs_step] at hx
  split_ifs at hx with h1 h2 h3 <;>
    simp only [List.mem_singleton, List.not_mem_nil] at hx
  · exact ⟨hx, by simpa using h1⟩
  · exact ⟨hx, by simpa using h1⟩

theorem MergeEngine.merge_theirs_pass_mem
    (mo mb : HashTable String String) (l : List File) :
    ∀ x ∈ (MergeEngine.merge_theirs_pass mo mb l).1,
      ∃ g ∈ l, x = g ∧ HashTable.contains mo g.path = false := by
  induction l with
  | nil => intro x hx; cases hx
  | cons g rest ih =>
      intro x hx
      simp only [MergeEngine.merge_theirs_pass] at hx
      rcases List.mem_append.mp hx with h1 | h1
      · rcases MergeEngine.merge_theirs_step_mem mo mb g x h1 with ⟨he, hc⟩
        exact ⟨g, List.mem_cons_self _ _, he, hc⟩
      · rcases ih x h1 with ⟨g2, hg2, he, hc⟩
        exact ⟨g2, List.mem_cons_of_mem _ hg2, he, hc⟩

/-- C1: when a path is present in both `ours` and `theirs` with differing
hashes and neither side's hash equals the (possibly absent) base hash,
`merge_commits` emits exactly one snapshot for that path — the literal
five-line conflict marker text around the two blob contents, closed by the
first seven characters of the incoming commit id — and appends the line
`CONFLICT (Content): <path>` to the conflict report. -/
theorem merge_emits_single_content_conflict (H : String → String)
    (ours theirs : Commit) (gm : GraphManager) (f : File)
    (hmem : f ∈ ours.files)
    (hnd : (ours.files.map File.path).Nodup)
    (hT : MergeEngine.hash_for
      (MergeEngine.create_file_map (some theirs)) f.path ≠ "")
    (hOT : f.hash ≠ MergeEngine.hash_for
      (MergeEngine.create_file_map (some theirs)) f.path)
    (hOB : f.hash ≠ MergeEngine.hash_for
      (MergeEngine.create_file_map
        (GraphAlgorithms.find_merge_base (some ours) (some theirs))) f.path)
    (hTB : MergeEngine.hash_for
        (MergeEngine.create_file_map (some theirs)) f.path ≠
      MergeEngine.hash_for
        (MergeEngine.create_file_map
          (GraphAlgorithms.find_merge_base (some ours) (some theirs)))
        f.path) :
    (MergeEngine.merge_commits H ours theirs gm).1.filter
        (fun g => g.path = f.path) =
      [File.make H f.path
        ("<<<<<<< HEAD\n" ++ gm.get_blob_content f.hash ++ "\n" ++
          "=======\n" ++
          gm.get_blob_content (MergeEngine.hash_for
            (MergeEngine.create_file_map (some theirs)) f.path) ++
          "\n" ++ ">>>>>>> " ++ theirs.id.take 7 ++ "\n")] ∧
    ∃ pre post, (MergeEngine.merge_commits H ours theirs gm).2 =
      pre ++ ("CONFLICT (Content): " ++ f.path ++ "\n") ++ post := by
  set mt := MergeEngine.create_file_map (some theirs) with hmt
  set mb := MergeEngine.create_file_map
    (GraphAlgorithms.find_merge_base (some ours) (some theirs)) with hmb
  set mo := MergeEngine.create_file_map (some ours) with hmo
  rcases List.append_of_mem hmem with ⟨l1, l2, hsplit⟩
  have hnd' : ((l1 ++ f :: l2).map File.path).Nodup := hsplit ▸ hnd
  rw [List.map_append, List.map_cons] at hnd'
  rcases List.nodup_append.mp hnd' with ⟨hnd1, hnd2, hdisj⟩
  have hf1 : f.path ∉ l1.map File.path :=
    fun h => hdisj h (List.mem_cons_self _ _)
  have hf2 : f.path ∉ l2.map File.path := (List.nodup_cons.mp hnd2).1
  have hstep : MergeEngine.merge_ours_step H gm mt mb theirs.id f =
      ([File.make H f.path
          ("<<<<<<< HEAD\n" ++ gm.get_blob_content f.hash ++ "\n" ++
            "=======\n" ++
            gm.get_blob_content (MergeEngine.hash_for mt f.path) ++
            "\n" ++ ">>>>>>> " ++ theirs.id.take 7 ++ "\n")],
        "CONFLICT (Content): " ++ f.path ++ "\n") := by
    rw [MergeEngine.merge_ours_step, if_neg hT, if_neg hOT, if_neg hOB,
      if_neg hTB]
  have hstep1 : (MergeEngine.merge_ours_step H gm mt mb theirs.id f).1 =
      [File.make H f.path
        ("<<<<<<< HEAD\n" ++ gm.get_blob_content f.hash ++ "\n" ++
          "=======\n" ++
          gm.get_blob_content (MergeEngine.hash_for mt f.path) ++
          "\n" ++ ">>>>>>> " ++ theirs.id.take 7 ++ "\n")] := by
    rw [hstep]
  have hstep2 : (MergeEngine.merge_ours_step H gm mt mb theirs.id f).2 =
      "CONFLICT (Content): " ++ f.path ++ "\n" := by
    rw [hstep]
  have hlist : (MergeEngine.merge_ours_pass H gm mt mb theirs.id
      ours.files).1 =
      (MergeEngine.merge_ours_pass H gm mt mb theirs.id l1).1 ++
        ((MergeEngine.merge_ours_step H gm mt mb theirs.id f).1 ++
          (MergeEngine.merge_ours_pass H gm mt mb theirs.id l2).1) := by
    rw [hsplit, MergeEngine.merge_ours_pass_append]
    rfl
  have hmsg : (MergeEngine.merge_ours_pass H gm mt mb theirs.id
      ours.files).2 =
      (MergeEngine.merge_ours_pass H gm mt mb theirs.id l1).2 ++
        ((MergeEngine.merge_ours_step H gm mt mb theirs.id f).2 ++
          (MergeEngine.merge_ours_pass H gm mt mb theirs.id l2).2) := by
    rw [hsplit, MergeEngine.merge_ours_pass_append]
    rfl
  have hfilter1 : ∀ l : List File, (∀ g ∈ l, g.path ≠ f.path) →
      (MergeEngine.merge_ours_pass H gm mt mb theirs.id l).1.filter
        (fun g => g.path = f.path) = [] := by
    intro l hl
    refine List.filter_eq_nil_iff.mpr ?_
    intro x hx
    rcases MergeEngine.merge_ours_pass_mem_path H gm mt mb theirs.id l x hx
      with ⟨g, hg, hp⟩
    simp only [decide_eq_true_eq]
    rw [hp]
    exact hl g hg
  have hpaths1 : ∀ g ∈ l1, g.path ≠ f.path := by
    intro g hg he
    exact hf1 (he ▸ List.mem_map_of_mem File.path hg)
  have hpaths2 : ∀ g ∈ l2, g.path ≠ f.path := by
    intro g hg he
    exact hf2 (he ▸ List.mem_map_of_mem File.path hg)
  have hcont : HashTable.contains mo f.path = true :=
    (MergeEngine.contains_file_map ours f.path).mpr
      (List.mem_map_of_mem File.path hmem)
  have hfilter2 : (MergeEngine.merge_theirs_pass mo mb
      theirs.files).1.filter (fun g => g.path = f.path) = [] := by
    refine List.filter_eq_nil_iff.mpr ?_
    intro x hx
    rcases MergeEngine.merge_theirs_pass_mem mo mb theirs.files x hx
      with ⟨g, _, he, hc⟩
    simp only [decide_eq_true_eq]
    intro hp
    rw [he] at hp
    rw [hp] at hc
    rw [hcont] at hc
    cases hc
  have hmc1 : (MergeEngine.merge_commits H ours theirs gm).1 =
      (MergeEngine.merge_ours_pass H gm mt mb theirs.id ours.files).1 ++
        (MergeEngine.merge_theirs_pass mo mb theirs.files).1 := rfl
  have hmc2 : (MergeEngine.merge_commits H ours theirs gm).2 =
      (MergeEngine.merge_ours_pass H gm mt mb theirs.id ours.files).2 ++
        (MergeEngine.merge_theirs_pass mo mb theirs.files).2 := rfl
  constructor
  · rw [hmc1, hlist, hstep1]
    rw [List.filter_append, List.filter_append, List.filter_append]
    rw [hfilter1 l1 hpaths1, hfilter1 l2 hpaths2, hfilter2]
    simp [File.make, List.filter]
  · refine ⟨(MergeEngine.merge_ours_pass H gm mt mb theirs.id l1).2,
      (MergeEngine.merge_ours_pass H gm mt mb theirs.id l2).2 ++
        (MergeEngine.merge_theirs_pass mo mb theirs.files).2, ?_⟩
    rw [hmc2, hmsg, hstep2]
    simp [String.append_assoc]

/-- Concrete `ours` commit of the content-conflict scenario: one file
`a` with hash `h1`, no parents. -/
def exOurs : Commit :=
  .mk "o" "m" "u" 0 "t" [⟨"a", "", "h1"⟩] none none

/-- Concrete `theirs` commit of the content-conflict scenario: one file
`a` with hash `h2`, no parents. -/
def exTheirs : Commit :=
  .mk "tid" "m" "u" 0 "t" [⟨"a", "", "h2"⟩] none none

/-- Concrete object store of the content-conflict scenario. -/
def exGM : GraphManager :=
  ⟨[], [], [("h1", "A"), ("h2", "B")]⟩

theorem exMergeBase :
    GraphAlgorithms.find_merge_base (some exOurs) (some exTheirs) = none := by
  rw [GraphAlgorithms.find_merge_base]
  rw [if_neg (by decide : ¬ exOurs.id = exTheirs.id)]
  rw [GraphAlgorithms.bfs_collect]
  rw [show GraphAlgorithms.enqueue_parents exOurs [] [exOurs.id] =
    ([], [exOurs.id]) from rfl]
  show GraphAlgorithms.bfs_find [exTheirs] [exTheirs.id]
    (GraphAlgorithms.bfs_collect [] [exOurs.id]) = none
  rw [GraphAlgorithms.bfs_collect]
  rw [GraphAlgorithms.bfs_find]
  rw [if_neg (by decide : ¬ exTheirs.id ∈ [exOurs.id])]
  rw [show GraphAlgorithms.enqueue_parents exTheirs [] [exTheirs.id] =
    ([], [exTheirs.id]) from rfl]
  show GraphAlgorithms.bfs_find [] [exTheirs.id] [exOurs.id] = none
  rw [GraphAlgorithms.bfs_find]

/-- Witness for C1 at a concrete input: a baseless two-sided edit of path
`a` yields exactly the one synthesized conflict snapshot and the
`CONFLICT (Content)` report line. -/
theorem merge_emits_single_content_conflict_witness :
    (MergeEngine.merge_commits id exOurs exTheirs exGM).1.filter
        (fun g => g.path = "a") =
      [File.make id "a"
        ("<<<<<<< HEAD\n" ++ exGM.get_blob_content "h1" ++ "\n" ++
          "=======\n" ++
          exGM.get_blob_content (MergeEngine.hash_for
            (MergeEngine.create_file_map (some exTheirs)) "a") ++
          "\n" ++ ">>>>>>> " ++ exTheirs.id.take 7 ++ "\n")] ∧
    ∃ pre post, (MergeEngine.merge_commits id exOurs exTheirs exGM).2 =
      pre ++ ("CONFLICT (Content): " ++ "a" ++ "\n") ++ post := by
  have hOB : (⟨"a", "", "h1"⟩ : File).hash ≠ MergeEngine.hash_for
      (MergeEngine.create_file_map
        (GraphAlgorithms.find_merge_base (some exOurs) (some exTheirs)))
      (⟨"a", "", "h1"⟩ : File).path := by
    rw [exMergeBase]
    decide
  have hTB : MergeEngine.hash_for
        (MergeEngine.create_file_map (some exTheirs))
        (⟨"a", "", "h1"⟩ : File).path ≠
      MergeEngine.hash_for
        (MergeEngine.create_file_map
          (GraphAlgorithms.find_merge_base (some exOurs) (some exTheirs)))
        (⟨"a", "", "h1"⟩ : File).path := by
    rw [exMergeBase]
    decide
  exact merge_emits_single_content_conflict id exOurs exTheirs exGM
    ⟨"a", "", "h1"⟩ (by decide) (by decide) (by decide) (by decide) hOB hTB

/-- C10: a path that the base and `ours` carry with equal (non-empty)
hashes but that is absent from `theirs` is omitted from the merged result
entirely, with no conflict line for it: the merge report equals the report
computed from the remaining files alone.  (The specification's decision
table indeed has no row for this case.) -/
theorem merge_propagates_incoming_deletion (H : String → String)
    (ours theirs : Commit) (gm : GraphManager) (f : File)
    (l1 l2 : List File)
    (hsplit : ours.files = l1 ++ f :: l2)
    (hnd : (ours.files.map File.path).Nodup)
    (hbase : MergeEngine.hash_for
      (MergeEngine.create_file_map
        (GraphAlgorithms.find_merge_base (some ours) (some theirs)))
      f.path = f.hash)
    (hne : f.hash ≠ "")
    (habs : ∀ g ∈ theirs.files, g.path ≠ f.path) :
    (MergeEngine.merge_commits H ours theirs gm).1.filter
        (fun g => g.path = f.path) = [] ∧
    (MergeEngine.merge_commits H ours theirs gm).2 =
      (MergeEngine.merge_ours_pass H gm
        (MergeEngine.create_file_map (some theirs))
        (MergeEngine.create_file_map
          (GraphAlgorithms.find_merge_base (some ours) (some theirs)))
        theirs.id (l1 ++ l2)).2 ++
      (MergeEngine.merge_theirs_pass
        (MergeEngine.create_file_map (some ours))
        (MergeEngine.create_file_map
          (GraphAlgorithms.find_merge_base (some ours) (some theirs)))
        theirs.files).2 := by
  set mt := MergeEngine.create_file_map (some theirs) with hmt
  set mb := MergeEngine.create_file_map
    (GraphAlgorithms.find_merge_base (some ours) (some theirs)) with hmb
  set mo := MergeEngine.create_file_map (some ours) with hmo
  have hmemf : f ∈ ours.files := by
    rw [hsplit]
    exact List.mem_append_right _ (List.mem_cons_self _ _)
  have hnd' : ((l1 ++ f :: l2).map File.path).Nodup := hsplit ▸ hnd
  rw [List.map_append, List.map_cons] at hnd'
  rcases List.nodup_append.mp hnd' with ⟨hnd1, hnd2, hdisj⟩
  have hf1 : f.path ∉ l1.map File.path :=
    fun h => hdisj h (List.mem_cons_self _ _)
  have hf2 : f.path ∉ l2.map File.path := (List.nodup_cons.mp hnd2).1
  have hTabs : MergeEngine.hash_for mt f.path = "" := by
    rw [hmt]
    refine MergeEngine.hash_for_absent theirs f.path ?_
    intro hmem
    rcases List.mem_map.mp hmem with ⟨g, hg, hgp⟩
    exact habs g hg hgp
  have hstep : MergeEngine.merge_ours_step H gm mt mb theirs.id f =
      ([], "") := by
    rw [MergeEngine.merge_ours_step, if_pos hTabs,
      if_neg (hbase ▸ hne ∘ Eq.symm ∘ Eq.symm), if_pos hbase]
  have hlist : (MergeEngine.merge_ours_pass H gm mt mb theirs.id
      ours.files).1 =
      (MergeEngine.merge_ours_pass H gm mt mb theirs.id l1).1 ++
        ((MergeEngine.merge_ours_step H gm mt mb theirs.id f).1 ++
          (MergeEngine.merge_ours_pass H gm mt mb theirs.id l2).1) := by
    rw [hsplit, MergeEngine.merge_ours_pass_append]
    rfl
  have hmsg : (MergeEngine.merge_ours_pass H gm mt mb theirs.id
      ours.files).2 =
      (MergeEngine.merge_ours_pass H gm mt mb theirs.id l1).2 ++
        ((MergeEngine.merge_ours_step H gm mt mb theirs.id f).2 ++
          (MergeEngine.merge_ours_pass H gm mt mb theirs.id l2).2) := by
    rw [hsplit, MergeEngine.merge_ours_pass_append]
    rfl
  have hfilter1 : ∀ l : List File, (∀ g ∈ l, g.path ≠ f.path) →
      (MergeEngine.merge_ours_pass H gm mt mb theirs.id l).1.filter
        (fun g => g.path = f.path) = [] := by
    intro l hl
    refine List.filter_eq_nil_iff.mpr ?_
    intro x hx
    rcases MergeEngine.merge_ours_pass_mem_path H gm mt mb theirs.id l x hx
      with ⟨g, hg, hp⟩
    simp only [decide_eq_true_eq]
    rw [hp]
    exact hl g hg
  have hpaths1 : ∀ g ∈ l1, g.path ≠ f.path := by
    intro g hg he
    exact hf1 (he ▸ List.mem_map_of_mem File.path hg)
  have hpaths2 : ∀ g ∈ l2, g.path ≠ f.path := by
    intro g hg he
    exact hf2 (he ▸ List.mem_map_of_mem File.path hg)
  have hcont : HashTable.contains mo f.path = true :=
    (MergeEngine.contains_file_map ours f.path).mpr
      (List.mem_map_of_mem File.path hmemf)
  have hfilter2 : (MergeEngine.merge_theirs_pass mo mb
      theirs.files).1.filter (fun g => g.path = f.path) = [] := by
    refine List.filter_eq_nil_iff.mpr ?_
    intro x hx
    rcases MergeEngine.merge_theirs_pass_mem mo mb theirs.files x hx
      with ⟨g, _, he, hc⟩
    simp only [decide_eq_true_eq]
    intro hp
    rw [he] at hp
    rw [hp] at hc
    rw [hcont] at hc
    cases hc
  have hmc1 : (MergeEngine.merge_commits H ours theirs gm).1 =
      (MergeEngine.merge_ours_pass H gm mt mb theirs.id ours.files).1 ++
        (MergeEngine.merge_theirs_pass mo mb theirs.files).1 := rfl
  have hmc2 : (MergeEngine.merge_commits H ours theirs gm).2 =
      (MergeEngine.merge_ours_pass H gm mt mb theirs.id ours.files).2 ++
        (MergeEngine.merge_theirs_pass mo mb theirs.files).2 := rfl
  constructor
  · rw [hmc1, hlist]
    rw [show (MergeEngine.merge_ours_step H gm mt mb theirs.id f).1 = []
      from congrArg Prod.fst hstep]
    rw [List.filter_append, List.filter_append, List.filter_append]
    rw [hfilter1 l1 hpaths1, hfilter1 l2 hpaths2, hfilter2]
    rfl
  · rw [hmc2, hmsg]
    rw [show (MergeEngine.merge_ours_step H gm mt mb theirs.id f).2 = ""
      from congrArg Prod.snd hstep]
    rw [MergeEngine.merge_ours_pass_append]
    rw [String.empty_append]

/-- Concrete base commit of the incoming-deletion scenario: carries file
`x` with hash `h`. -/
def exBase10 : Commit :=
  .mk "b" "m" "u" 0 "t" [⟨"x", "c", "h"⟩] none none

/-- Concrete `ours` commit of the incoming-deletion scenario: `x`
unchanged from the base. -/
def exOurs10 : Commit :=
  .mk "o" "m" "u" 0 "t" [⟨"x", "c", "h"⟩] (some exBase10) none

/-- Concrete `theirs` commit of the incoming-deletion scenario: `x`
deleted. -/
def exTheirs10 : Commit :=
  .mk "t2" "m" "u" 0 "t" [] (some exBase10) none

theorem exMergeBase10 :
    GraphAlgorithms.find_merge_base (some exOurs10) (some exTheirs10) =
      some exBase10 := by
  rw [GraphAlgorithms.find_merge_base]
  rw [if_neg (by decide : ¬ exOurs10.id = exTheirs10.id)]
  rw [GraphAlgorithms.bfs_collect]
  rw [show GraphAlgorithms.enqueue_parents exOurs10 [] [exOurs10.id] =
    ([exBase10], [exBase10.id, exOurs10.id]) from rfl]
  show GraphAlgorithms.bfs_find [exTheirs10] [exTheirs10.id]
    (GraphAlgorithms.bfs_collect [exBase10] [exBase10.id, exOurs10.id]) =
    some exBase10
  rw [GraphAlgorithms.bfs_collect]
  rw [show GraphAlgorithms.enqueue_parents exBase10 []
    [exBase10.id, exOurs10.id] = ([], [exBase10.id, exOurs10.id]) from rfl]
  show GraphAlgorithms.bfs_find [exTheirs10] [exTheirs10.id]
    (GraphAlgorithms.bfs_collect [] [exBase10.id, exOurs10.id]) =
    some exBase10
  rw [GraphAlgorithms.bfs_collect]
  rw [GraphAlgorithms.bfs_find]
  rw [if_neg (by decide : ¬ exTheirs10.id ∈ [exBase10.id, exOurs10.id])]
  rw [show GraphAlgorithms.enqueue_parents exTheirs10 [] [exTheirs10.id] =
    ([exBase10], [exBase10.id, exTheirs10.id]) from rfl]
  show GraphAlgorithms.bfs_find [exBase10] [exBase10.id, exTheirs10.id]
    [exBase10.id, exOurs10.id] = some exBase10
  rw [GraphAlgorithms.bfs_find]
  rw [if_pos (by decide : exBase10.id ∈ [exBase10.id, exOurs10.id])]

/-- Witness for C10 at a concrete input: `x` kept by `ours` as in the
base, deleted by `theirs`, silently drops out of the merge result and the
conflict report. -/
theorem merge_propagates_incoming_deletion_witness :
    (MergeEngine.merge_commits id exOurs10 exTheirs10
        ⟨[], [], []⟩).1.filter (fun g => g.path = "x") = [] ∧
    (MergeEngine.merge_commits id exOurs10 exTheirs10 ⟨[], [], []⟩).2 =
      (MergeEngine.merge_ours_pass id ⟨[], [], []⟩
        (MergeEngine.create_file_map (some exTheirs10))
        (MergeEngine.create_file_map
          (GraphAlgorithms.find_merge_base (some exOurs10) (some exTheirs10)))
        exTheirs10.id ([] ++ [])).2 ++
      (MergeEngine.merge_theirs_pass
        (MergeEngine.create_file_map (some exOurs10))
        (MergeEngine.create_file_map
          (GraphAlgorithms.find_merge_base (some exOurs10) (some exTheirs10)))
        exTheirs10.files).2 := by
  have hbase : MergeEngine.hash_for
      (MergeEngine.create_file_map
        (GraphAlgorithms.find_merge_base (some exOurs10) (some exTheirs10)))
      (⟨"x", "c", "h"⟩ : File).path = (⟨"x", "c", "h"⟩ : File).hash := by
    rw [exMergeBase10]
    decide
  exact merge_propagates_incoming_deletion id exOurs10 exTheirs10
    ⟨[], [], []⟩ ⟨"x", "c", "h"⟩ [] [] rfl (by decide) hbase (by decide)
    (fun g hg => absurd hg (List.not_mem_nil g))

/- ### Reference manager and repository façade
(`core::ReferenceManager`, `core::Repository`) -/

/-- The error taxonomy of the façade (§7 of the specification); the C++
source throws `std::runtime_error` with a message per kind. -/
inductive RepoError where
  | emptyStaging
  | emptyHead
  | branchNotFound (name : String)
  | alreadyExists (name : String)
  | detachedHead
deriving DecidableEq

/-- Embeds `core::ReferenceManager`: the branch table maps a branch name to
its `last_commit_` field (a C++ `Branch*` is identified by its unique
name), and `current_branch` holds the checked-out branch's name.  The
ownership list `managed_branches_` only mirrors the table's entries and is
not separately observable. -/
structure ReferenceManager where
  branches : HashTable String (Option Commit)
  current_branch : Option String

/-- Embeds `ReferenceManager::get_branch`: `some tip` when the branch
exists, `none` for a null `Branch*`. -/
def ReferenceManager.get_branch (rm : ReferenceManager) (name : String) :
    Option (Option Commit) :=
  HashTable.find rm.branches name

/-- Embeds `ReferenceManager::create_branch`. -/
def ReferenceManager.create_branch (rm : ReferenceManager) (name : String)
    (target : Option Commit) : Except RepoError ReferenceManager :=
  if (HashTable.find rm.branches name).isSome then
    .error (.alreadyExists name)
  else
    .ok { rm with branches := HashTable.put rm.branches name target }

/-- Embeds `ReferenceManager::checkout_branch`. -/
def ReferenceManager.checkout_branch (rm : ReferenceManager)
    (name : String) : Except RepoError ReferenceManager :=
  if (HashTable.find rm.branches name).isSome then
    .ok { rm with current_branch := some name }
  else
    .error (.branchNotFound name)

/-- Embeds `ReferenceManager::update_head`: retarget the current branch's
`last_commit_` (the C++ write through the `current_branch_` pointer is the
table update at the current name). -/
def ReferenceManager.update_head (rm : ReferenceManager) (c : Commit) :
    Except RepoError ReferenceManager :=
  match rm.current_branch with
  | some name =>
      .ok { rm with branches := HashTable.put rm.branches name (some c) }
  | none => .error .detachedHead

/-- Embeds `core::Repository` state: object store, references, staging.
The `StorageEngine` collaborator only writes the working tree on disk and
holds no repository state. -/
structure Repository where
  graph_manager : GraphManager
  reference_manager : ReferenceManager
  staging_area : List File

/-- Embeds the `Repository` constructor: branch `master` created unborn
and checked out. -/
def Repository.init : Repository :=
  { graph_manager := ⟨[], [], []⟩
    reference_manager := ⟨[("master", none)], some "master"⟩
    staging_area := [] }

/-- Embeds `Repository::calculate_tree_hash`. -/
def Repository.calculate_tree_hash (H : String → String)
    (repo : Repository) : String :=
  if repo.staging_area = [] then "empty_tree"
  else MerkleTree.get_root_hash H repo.staging_area

/-- Embeds `Repository::commit` (with the injectable clock `now`): guard
on empty staging, fix the tree digest, persist staged blobs, build
lightweight entries, create the commit on the current tip, store it,
retarget the branch, clear staging, return the id. -/
def Repository.commit (H : String → String) (repo : Repository)
    (message author : String) (now : Nat) :
    Except RepoError (String × Repository) :=
  if repo.staging_area = [] then .error .emptyStaging
  else
    let tree_hash := Repository.calculate_tree_hash H repo
    let gm1 := repo.staging_area.foldl
      (fun gm f => GraphManager.save_blob gm f.hash f.content)
      repo.graph_manager
    let commit_files := repo.staging_area.map
      (fun f => File.set_hash_manual (File.make H f.path "") f.hash)
    let parent : Option Commit :=
      match repo.reference_manager.current_branch with
      | some name =>
          (HashTable.find repo.reference_manager.branches name).getD none
      | none => none
    let c := Commit.make H message author now tree_hash commit_files
      parent none
    let gm2 := GraphManager.add_commit gm1 c
    match ReferenceManager.update_head repo.reference_manager c with
    | .error e => .error e
    | .ok rm2 =>
        .ok (c.id,
          { graph_manager := gm2, reference_manager := rm2,
            staging_area := [] })

/-- Embeds `Repository::merge` (with the injectable clock `now`).  The
returned list holds the human-readable lines printed by the operation; the
working-tree writes go to the external `StorageEngine` and are not
repository state. -/
def Repository.merge (H : String → String) (repo : Repository)
    (branch_name : String) (now : Nat) :
    Except RepoError (Repository × List String) :=
  match repo.reference_manager.current_branch with
  | none => .error .detachedHead
  | some cur_name =>
      match HashTable.find repo.reference_manager.branches branch_name with
      | none => .error (.branchNotFound branch_name)
      | some target_tip =>
          match (HashTable.find repo.reference_manager.branches
              cur_name).getD none, target_tip with
          | none, _ => .ok (repo, ["Nothing to merge."])
          | some _, none => .ok (repo, ["Nothing to merge."])
          | some head_c, some target_c =>
              if head_c.id = target_c.id then
                .ok (repo, ["Already up to date."])
              else
                let merged := MergeEngine.merge_commits H head_c target_c
                  repo.graph_manager
                let staged := merged.1.foldl StagingArea.add_file []
                if merged.2 = "" then
                  let tree_hash := if staged = [] then "empty_tree"
                    else MerkleTree.get_root_hash H staged
                  let gm1 := staged.foldl
                    (fun gm f => GraphManager.save_blob gm f.hash f.content)
                    repo.graph_manager
                  let commit_files := staged.map
                    (fun f => File.set_hash_manual (File.make H f.path "")
                      f.hash)
                  let c := Commit.make H
                    ("Merge branch \x27" ++ branch_name ++ "\x27") "MergeUser"
                    now tree_hash commit_files (some head_c) (some target_c)
                  let gm2 := GraphManager.add_commit gm1 c
                  let rm2 := { repo.reference_manager with
                    branches := HashTable.put
                      repo.reference_manager.branches cur_name (some c) }
                  .ok
                    ({ graph_manager := gm2
                       reference_manager := rm2
                       staging_area := [] },
                      ["Merging " ++ branch_name ++ " into " ++ cur_name ++
                        "...", "Merge successful."])
                else
                  .ok ({ repo with staging_area := staged },
                    ["Merging " ++ branch_name ++ " into " ++ cur_name ++
                      "...", "MERGE CONFLICT! Fix conflicts manually.",
                      merged.2])

/- ### Repository-level lemmas, C3 and C8 -/

theorem HashTable.contains_put_self {K V : Type} [DecidableEq K]
    (m : HashTable K V) (k : K) (v : V) :
    HashTable.contains (HashTable.put m k v) k = true := by
  simp [HashTable.contains, HashTable.find_put_self]

theorem GraphManager.contains_save_blob_self (gm : GraphManager)
    (h c : String) :
    HashTable.contains (GraphManager.save_blob gm h c).blob_storage h =
      true := by
  by_cases hc : HashTable.contains gm.blob_storage h = true
  · simp [GraphManager.save_blob, hc]
  · rw [GraphManager.save_blob, if_neg hc]
    exact HashTable.contains_put_self _ _ _

theorem GraphManager.contains_save_blob_mono (gm : GraphManager)
    (h h2 c : String)
    (hc : HashTable.contains gm.blob_storage h = true) :
    HashTable.contains (GraphManager.save_blob gm h2 c).blob_storage h =
      true := by
  by_cases hc2 : HashTable.contains gm.blob_storage h2 = true
  · simpa [GraphManager.save_blob, hc2] using hc
  · rw [GraphManager.save_blob, if_neg hc2]
    show HashTable.contains (HashTable.put gm.blob_storage h2 c) h = true
    exact (HashTable.contains_put _ _ _ _).mpr (Or.inr hc)

theorem GraphManager.foldl_save_blob_mono (l : List File)
    (gm : GraphManager) (h : String)
    (hc : HashTable.contains gm.blob_storage h = true) :
    HashTable.contains
      ((l.foldl (fun g x => GraphManager.save_blob g x.hash x.content)
        gm)).blob_storage h = true := by
  induction l generalizing gm with
  | nil => exact hc
  | cons g rest ih =>
      exact ih _ (GraphManager.contains_save_blob_mono _ _ _ _ hc)

theorem GraphManager.foldl_save_blob_contains (l : List File)
    (gm : GraphManager) :
    ∀ f ∈ l, HashTable.contains
      ((l.foldl (fun g x => GraphManager.save_blob g x.hash x.content)
        gm)).blob_storage f.hash = true := by
  induction l generalizing gm with
  | nil => intro f hf; cases hf
  | cons g rest ih =>
      intro f hf
      rcases List.mem_cons.mp hf with h1 | h1
      · subst h1
        exact GraphManager.foldl_save_blob_mono rest _ _
          (GraphManager.contains_save_blob_self gm f.hash f.content)
      · exact ih _ f h1

theorem Commit.make_parent1 (H : String → String) (m a : String) (t : Nat)
    (th : String) (fs : List File) (p1 p2 : Option Commit) :
    (Commit.make H m a t th fs p1 p2).parent1 = p1 := rfl

theorem Commit.make_parent2 (H : String → String) (m a : String) (t : Nat)
    (th : String) (fs : List File) (p1 p2 : Option Commit) :
    (Commit.make H m a t th fs p1 p2).parent2 = p2 := rfl

/-- C3: `commit` fails — with `EmptyStaging`, leaving the state untouched —
exactly when the staging area is empty; otherwise it persists every staged
blob, stores a commit whose `parent1` is the current branch's previous tip
and whose `parent2` is absent, retargets the current branch to it, clears
staging, and returns the new commit's id. -/
theorem repository_commit_spec (H : String → String) (repo : Repository)
    (message author : String) (now : Nat) (name : String)
    (hcur : repo.reference_manager.current_branch = some name) :
    ((∃ e, Repository.commit H repo message author now = .error e) ↔
      repo.staging_area = []) ∧
    (repo.staging_area = [] →
      Repository.commit H repo message author now =
        .error RepoError.emptyStaging) ∧
    (∀ cid repo2,
      Repository.commit H repo message author now = .ok (cid, repo2) →
      ∃ c : Commit,
        c = Commit.make H message author now
          (Repository.calculate_tree_hash H repo)
          (repo.staging_area.map
            (fun f => File.set_hash_manual (File.make H f.path "") f.hash))
          ((HashTable.find repo.reference_manager.branches name).getD none)
          none ∧
        cid = c.id ∧
        c.parent1 =
          (HashTable.find repo.reference_manager.branches name).getD none ∧
        c.parent2 = none ∧
        repo2.graph_manager.get_commit c.id = some c ∧
        (∀ f ∈ repo.staging_area, HashTable.contains
          repo2.graph_manager.blob_storage f.hash = true) ∧
        HashTable.find repo2.reference_manager.branches name =
          some (some c) ∧
        repo2.reference_manager.current_branch = some name ∧
        repo2.staging_area = []) := by
  by_cases hsa : repo.staging_area = []
  · refine ⟨⟨fun _ => hsa, fun _ => ?_⟩, fun _ => ?_, ?_⟩
    · exact ⟨RepoError.emptyStaging, by rw [Repository.commit, if_pos hsa]⟩
    · rw [Repository.commit, if_pos hsa]
    · intro cid repo2 hok
      rw [Repository.commit, if_pos hsa] at hok
      cases hok
  · have hres : Repository.commit H repo message author now =
        .ok ((Commit.make H message author now
            (Repository.calculate_tree_hash H repo)
            (repo.staging_area.map
              (fun f => File.set_hash_manual (File.make H f.path "")
                f.hash))
            ((HashTable.find repo.reference_manager.branches name).getD
              none) none).id,
          { graph_manager := GraphManager.add_commit
              (repo.staging_area.foldl
                (fun gm f => GraphManager.save_blob gm f.hash f.content)
                repo.graph_manager)
              (Commit.make H message author now
                (Repository.calculate_tree_hash H repo)
                (repo.staging_area.map
                  (fun f => File.set_hash_manual (File.make H f.path "")
                    f.hash))
                ((HashTable.find repo.reference_manager.branches
                  name).getD none) none)
            reference_manager := { repo.reference_manager with
              branches := HashTable.put repo.reference_manager.branches
                name (some (Commit.make H message author now
                  (Repository.calculate_tree_hash H repo)
                  (repo.staging_area.map
                    (fun f => File.set_hash_manual (File.make H f.path "")
                      f.hash))
                  ((HashTable.find repo.reference_manager.branches
                    name).getD none) none)) }
            staging_area := [] }) := by
      rw [Repository.commit, if_neg hsa]
      simp only [hcur, ReferenceManager.update_head]
    refine ⟨⟨?_, fun h => absurd h hsa⟩, fun h => absurd h hsa, ?_⟩
    · rintro ⟨e, he⟩
      rw [hres] at he
      cases he
    · intro cid repo2 hok
      rw [hres] at hok
      injection hok with hok
      injection hok with hok1 hok2
      refine ⟨_, rfl, hok1.symm, rfl, rfl, ?_, ?_, ?_, ?_, ?_⟩
      · rw [← hok2]
        exact HashTable.find_put_self _ _ _
      · intro f hf
        rw [← hok2]
        exact GraphManager.foldl_save_blob_contains _ _ f hf
      · rw [← hok2]
        exact HashTable.find_put_self _ _ _
      · rw [← hok2]
        exact hcur
      · rw [← hok2]

/-- Concrete repository with one staged file for the C3 witness. -/
def repoC3 : Repository :=
  { graph_manager := ⟨[], [], []⟩
    reference_manager := ⟨[("master", none)], some "master"⟩
    staging_area := [⟨"a", "x", "h"⟩] }

/-- Witness for C3 at concrete inputs: committing on a fresh repository
fails with `EmptyStaging`, and with one staged file `commit` does not
fail. -/
theorem repository_commit_spec_witness :
    Repository.commit id Repository.init "m" "u" 0 =
      .error RepoError.emptyStaging ∧
    ((∃ e, Repository.commit id repoC3 "m" "u" 0 = .error e) ↔
      repoC3.staging_area = []) := by
  constructor
  · exact (repository_commit_spec id Repository.init "m" "u" 0 "master"
      rfl).2.1 rfl
  · exact (repository_commit_spec id repoC3 "m" "u" 0 "master" rfl).1

/-- C8: merging a branch whose tip has the same id as the current tip is a
no-op: the repository value (staging, object store, branch pointers) is
returned unchanged and the single line reported is
`Already up to date.`. -/
theorem repository_merge_same_tip_noop (H : String → String)
    (repo : Repository) (branch_name cur_name : String) (now : Nat)
    (head_c target_c : Commit)
    (hcur : repo.reference_manager.current_branch = some cur_name)
    (htarget : HashTable.find repo.reference_manager.branches branch_name =
      some (some target_c))
    (hhead : HashTable.find repo.reference_manager.branches cur_name =
      some (some head_c))
    (hid : head_c.id = target_c.id) :
    Repository.merge H repo branch_name now =
      .ok (repo, ["Already up to date."]) := by
  rw [Repository.merge]
  rw [hcur]
  simp only [htarget, hhead, Option.getD, hid, if_true, eq_self_iff_true]

/-- Concrete repository for the C8 witness: `master` checked out with a
non-null tip. -/
def repoC8 : Repository :=
  { graph_manager := ⟨[], [], []⟩
    reference_manager := ⟨[("master", some exBase10)], some "master"⟩
    staging_area := [] }

/-- Witness for C8 at a concrete input: merging `master` into itself. -/
theorem repository_merge_same_tip_noop_witness :
    Repository.merge id repoC8 "master" 0 =
      .ok (repoC8, ["Already up to date."]) :=
  repository_merge_same_tip_noop id repoC8 "master" "master" 0
    exBase10 exBase10 rfl rfl rfl rfl

end Tri
